import Mathlib

/-!
Verification of the bandit pricing engine `run_creator_sim_core`
(`src/engine/pricing_engine.py`) against its natural-language specification.

Shallow embedding choices:
* All numeric values (numpy float64 in the source) are modelled as rationals `ℚ`.
* The numpy global pseudorandom generator is modelled abstractly: a `Rng` maps a
  seed to a `DrawFamily`, a family of pure functions from the distribution
  parameters and the current draw position (a natural-number counter threaded
  through the computation, advancing by one per variate) to the drawn value.
  `np.random.seed(seed)` corresponds to selecting `rng seed` and resetting the
  counter to 0.  This captures exactly the determinism structure of the source:
  every random draw is a pure function of the seed and of the position in the
  draw stream.
* The source computes `sigma = sqrt(0.21)`, `mu = ln(m) - 0.5 * 0.21` and calls
  `np.random.lognormal(mu, sigma)`; since `ln`/`sqrt` are not rational and
  `(mu, sigma)` is in bijection with `(m, sigma2)`, the composite draw is taken
  as a single abstract primitive keyed by `(m, sigma2)`.
* Python `dict`s (insertion-ordered, unique keys) are association lists
  `List (Label × _)`; dictionary mutation preserves key order, as does
  `updateAssoc` below.
* Sites where the Python code can raise (`KeyError` on a missing key, `max()`
  of an empty sequence, `.iloc[0]` of an empty frame, `% 0`) are modelled with
  `Except SimError`.  The source performs no configuration validation and has
  no `InvalidConfiguration` error kind, so `SimError` has none either.
* `pandas.sort_values` (default quicksort, deterministic but with unspecified
  tie order) and `np.argsort` are modelled by the stable `List.mergeSort`; ties
  on the sort keys have probability zero under the source's continuous
  sampling, and no claim below depends on tie order.
-/

abbrev Label := String

/-- A candidate price point under test (one value of the `true_price_arms` dict). -/
structure PriceArm where
  price : ℚ
  true_mean_revenue : ℚ
  true_churn : ℚ
deriving DecidableEq

/-- Per-arm Bayesian belief state (`posteriors[arm]` in the source). -/
structure Posterior where
  alpha : ℚ
  beta : ℚ
  a : ℚ
  b : ℚ
  N : ℕ
deriving DecidableEq

/-- Abstract family of pseudorandom draws after seeding: each field models one
numpy sampling primitive as a pure function of the distribution parameters and
of the draw position. -/
structure DrawFamily where
  lognormalMean : ℚ → ℚ → ℕ → ℚ
  uniform : ℕ → ℚ
  betaV : ℚ → ℚ → ℕ → ℚ
  gammaV : ℚ → ℚ → ℕ → ℚ
  randintV : ℕ → ℕ → ℕ → ℕ

/-- The generator algorithm: maps a seed (`np.random.seed`) to the draw family. -/
abbrev Rng := ℕ → DrawFamily

/-- Failure kinds of the Python code (`KeyError`, `max()` of an empty sequence,
`.iloc[0]` on an empty frame, `ZeroDivisionError` from `% 0`).  The source
defines no `InvalidConfiguration` kind. -/
inductive SimError where
  | keyNotFound (k : Label)
  | emptyMax
  | emptyFrame
  | divisionByZero
deriving DecidableEq

/-- Dict keys `true_price_arms.keys()` / `posteriors.keys()` as a list. -/
def keysOf {α : Type} (xs : List (Label × α)) : List Label :=
  xs.map Prod.fst

/-- Dictionary lookup, raising the Python `KeyError` as an `Except`. -/
def lookupE {α : Type} (xs : List (Label × α)) (l : Label) : Except SimError α :=
  match xs.lookup l with
  | some v => .ok v
  | none => .error (.keyNotFound l)

/-- Dictionary value update at an existing key; Python dict mutation keeps the
key order. -/
def updateAssoc (ps : List (Label × Posterior)) (l : Label) (p : Posterior) :
    List (Label × Posterior) :=
  ps.map (fun q => if q.1 = l then (l, p) else q)

/-- Source `init_posteriors`: every arm starts at `alpha0 = beta0 = a0 = b0 = 1.0`,
`N = 0`. -/
def initPosteriors (trueArms : List (Label × PriceArm)) : List (Label × Posterior) :=
  trueArms.map (fun q => (q.1, ⟨1, 1, 1, 1, 0⟩))

/-- Source `simulate_outcome`: one lognormal revenue draw (see the header note on the
`(m, sigma2)` keying) followed by one uniform draw compared against
`true_churn` (`int(np.random.rand() < churn_prob)`).  Returns
`((revenue, churn), new counter)`; `churn ∈ {0, 1}` as a rational. -/
def simulateOutcome (g : DrawFamily) (arm : PriceArm) (k : ℕ) : (ℚ × ℚ) × ℕ :=
  let revenue := g.lognormalMean arm.true_mean_revenue (21 / 100) k
  let churn : ℚ := if g.uniform (k + 1) < arm.true_churn then 1 else 0
  ((revenue, churn), k + 2)

/-- Numpy `np.random.beta(a, b, size = n)`: `n` successive Beta variates. -/
def betaSamples (g : DrawFamily) (a b : ℚ) (n : ℕ) (k : ℕ) : List ℚ × ℕ :=
  ((List.range n).map (fun j => g.betaV a b (k + j)), k + n)

/-- Numpy `np.mean(theta_samples > churn_cap)`: fraction of samples strictly above
the cap. -/
def probExceeds (samples : List ℚ) (cap : ℚ) : ℚ :=
  (samples.countP (fun x => cap < x) : ℚ) / (samples.length : ℚ)

/-- The in-loop baseline churn estimate of `choose_price_arm`: posterior mean
when the baseline has `a + b > 2`, otherwise the configured `true_churn`
(a `KeyError` when the baseline label is missing). -/
def baselineChurnEstE (trueArms : List (Label × PriceArm)) (baselineArm : Label)
    (base : Posterior) : Except SimError ℚ :=
  if base.a + base.b > 2 then
    .ok (base.a / (base.a + base.b))
  else
    match lookupE trueArms baselineArm with
    | .ok armDef => .ok armDef.true_churn
    | .error e => .error e

/-- The safe-arm scan of `choose_price_arm`: arms with `a + b ≤ 2` are safe
without sampling; every other arm consumes `nChurn` Beta draws and is safe iff
the exceedance fraction is `< tau`.  Returns the safe `(label, posterior)`
pairs in the original order, plus the advanced counter. -/
def safeArmsGo (g : DrawFamily) (cap tau : ℚ) (nChurn : ℕ) :
    List (Label × Posterior) → ℕ → List (Label × Posterior) × ℕ
  | [], k => ([], k)
  | (l, p) :: rest, k =>
    if p.a + p.b ≤ 2 then
      let s := safeArmsGo g cap tau nChurn rest k
      ((l, p) :: s.1, s.2)
    else
      let smp := betaSamples g p.a p.b nChurn k
      let probBad := probExceeds smp.1 cap
      let s := safeArmsGo g cap tau nChurn rest smp.2
      if probBad < tau then ((l, p) :: s.1, s.2) else (s.1, s.2)

/-- The Thompson step of `choose_price_arm`: one Gamma draw
(`shape = alpha`, `scale = 1 / beta`) per safe arm, in order. -/
def thompsonGo (g : DrawFamily) :
    List (Label × Posterior) → ℕ → List (Label × ℚ) × ℕ
  | [], k => ([], k)
  | (l, p) :: rest, k =>
    let v := g.gammaV p.alpha (1 / p.beta) k
    let s := thompsonGo g rest (k + 1)
    ((l, v) :: s.1, s.2)

/-- Python `max(d, key=d.get)`: the first key attaining the maximal value
(`none` on an empty dict, where Python raises `ValueError`). -/
def argmaxFirst : List (Label × ℚ) → Option (Label × ℚ)
  | [] => none
  | x :: rest =>
    match argmaxFirst rest with
    | none => some x
    | some y => if x.2 < y.2 then some y else some x

/-- Source `choose_price_arm`: guardrailed Thompson sampling.  Returns the chosen
label and the advanced draw counter. -/
def choosePriceArm (g : DrawFamily) (trueArms : List (Label × PriceArm))
    (baselineArm : Label) (maxRel tau : ℚ) (nChurn : ℕ)
    (posteriors : List (Label × Posterior)) (k : ℕ) :
    Except SimError (Label × ℕ) :=
  match lookupE posteriors baselineArm with
  | .error e => .error e
  | .ok base =>
    match baselineChurnEstE trueArms baselineArm base with
    | .error e => .error e
    | .ok baselineChurnEst =>
      let churnCap := baselineChurnEst * (1 + maxRel)
      let safe := safeArmsGo g churnCap tau nChurn posteriors k
      let safe2 := if safe.1.isEmpty then posteriors else safe.1
      let sampled := thompsonGo g safe2 safe.2
      match argmaxFirst sampled.1 with
      | some best => .ok (best.1, sampled.2)
      | none => .error .emptyMax

/-- One simulated event record (`events.append({...})`). -/
structure Event where
  event_id : ℕ
  creator_id : String
  subscriber_id : String
  day_of_experiment : ℕ
  price_arm : Label
  price_usd : ℚ
  net_revenue_30d : ℚ
  churn_30d : ℚ
deriving DecidableEq

/-- Left-pad a digit string with zeros to width `w` (Python 04d formatting). -/
def padZeros (w : ℕ) (s : String) : String :=
  if s.length ≥ w then s else String.mk (List.replicate (w - s.length) '0') ++ s

/-- Python subscriber-id formatting: the letter S followed by the event index
zero-padded to 4 digits. -/
def subId (i : ℕ) : String := "S" ++ padZeros 4 (toString i)

/-- Mutable loop state of the experiment loop: the posteriors dict, the
append-only `events` list, and the draw counter. -/
structure SimState where
  posteriors : List (Label × Posterior)
  events : List Event
  k : ℕ
deriving DecidableEq

/-- Arm selection for event `i` (1-based): forced round-robin exploration
(`arm_list[(i - 1) % len(arm_list)]`) while `i ≤ 10 * |arms|`, then
`choose_price_arm`.  Returns the label and the advanced counter. -/
def selectArm (g : DrawFamily) (trueArms : List (Label × PriceArm))
    (maxRel tau : ℚ) (posteriors : List (Label × Posterior)) (k : ℕ) (i : ℕ) :
    Except SimError (Label × ℕ) :=
  let armList := keysOf trueArms
  if i ≤ armList.length * 10 then
    if armList.length = 0 then .error .divisionByZero
    else
      match armList.get? ((i - 1) % armList.length) with
      | some l => .ok (l, k)
      | none => .error .emptyFrame
  else
    choosePriceArm g trueArms "A" maxRel tau 2000 posteriors k

/-- The body of the experiment loop at event `i`: select an arm, simulate its
outcome, apply the conjugate update `alpha += revenue`, `beta += 1`,
`a += churn`, `b += 1 - churn`, `N += 1` to that arm only, and append the
event record (whose `day_of_experiment` is `np.random.randint(1, 31)`). -/
def simStep (g : DrawFamily) (trueArms : List (Label × PriceArm))
    (creatorId : String) (maxRel tau : ℚ) (st : SimState) (i : ℕ) :
    Except SimError SimState :=
  match selectArm g trueArms maxRel tau st.posteriors st.k i with
  | .error e => .error e
  | .ok (armKey, k0) =>
    match lookupE trueArms armKey, lookupE st.posteriors armKey with
    | .ok armDef, .ok p =>
      let out := simulateOutcome g armDef k0
      let revenue := out.1.1
      let churn := out.1.2
      let k1 := out.2
      let p' : Posterior :=
        ⟨p.alpha + revenue, p.beta + 1, p.a + churn, p.b + (1 - churn), p.N + 1⟩
      let day := g.randintV 1 31 k1
      let ev : Event :=
        ⟨i, creatorId, subId i, day, armKey, armDef.price, revenue, churn⟩
      .ok ⟨updateAssoc st.posteriors armKey p', st.events ++ [ev], k1 + 1⟩
    | .error e, _ => .error e
    | _, .error e => .error e

/-- The experiment loop after `t` events (`for i in range(1, n_events + 1)`
truncated at `t`): the state reached after events `1 .. t`. -/
def runEvents (g : DrawFamily) (trueArms : List (Label × PriceArm))
    (creatorId : String) (maxRel tau : ℚ) : ℕ → Except SimError SimState
  | 0 => .ok ⟨initPosteriors trueArms, [], 0⟩
  | t + 1 =>
    match runEvents g trueArms creatorId maxRel tau t with
    | .error e => .error e
    | .ok st => simStep g trueArms creatorId maxRel tau st (t + 1)

/-- One row of `summary_obs` (observed aggregates grouped by arm). -/
structure ObsRow where
  price_arm : Label
  price_usd : ℚ
  n_events : ℕ
  avg_revenue_30d : ℚ
  churn_rate_30d : ℚ
deriving DecidableEq

/-- One row of `summary_post` (posterior aggregates). -/
structure PostRow where
  price_arm : Label
  price_usd : ℚ
  posterior_mean_revenue : ℚ
  posterior_mean_churn : ℚ
  n_events : ℕ
deriving DecidableEq

/-- One row of `prob_df`; `prob_ge3_next` is the source's column
`prob_arm_is_≥3%_better_than_next`. -/
structure ProbRow where
  price_arm : Label
  price_usd : ℚ
  prob_arm_is_best : ℚ
  prob_ge3_next : ℚ
deriving DecidableEq

/-- One row of `safe_df` (churn guardrail table). -/
structure SafeRow where
  price_arm : Label
  price_usd : ℚ
  posterior_mean_churn : ℚ
  prob_churn_violates_guardrail : ℚ
  is_safe : Bool
deriving DecidableEq

/-- One row of the merged `report_table`; the columns coming from the `merge`
with `how="left"` are `Option`-valued (`none` = pandas `NaN`). -/
structure ReportRow where
  price_arm : Label
  price_usd : ℚ
  posterior_mean_revenue : ℚ
  posterior_mean_churn : ℚ
  n_events : ℕ
  prob_arm_is_best : Option ℚ
  prob_ge3_next : Option ℚ
  is_safe : Option Bool
  uplift_vs_baseline_pct : ℚ
deriving DecidableEq

/-- The terminal output bundle of `run_creator_sim_core`. -/
structure ExperimentResult where
  summary_obs : List ObsRow
  summary_post : List PostRow
  prob_df : List ProbRow
  safe_df : List SafeRow
  report_table : List ReportRow
  best_price : ℚ
  uplift_pct : ℚ
  prob_ge_3 : ℚ
  baseline_price : ℚ
  creator_name : String
  creator_id : String
  events_df : List Event
deriving DecidableEq

/-- Stable sort of rows by a rational key, modelling
`DataFrame.sort_values(column)` (ascending). -/
def sortByKey {α : Type} (key : α → ℚ) (rows : List α) : List α :=
  rows.mergeSort (fun r s => decide (key r ≤ key s))

/-- Pandas `events_df.groupby(["price_arm", "price_usd"])` group keys: the distinct
`(arm, price)` pairs, sorted lexicographically (pandas sorts group keys). -/
def obsGroupKeys (events : List Event) : List (Label × ℚ) :=
  ((events.map (fun e => (e.price_arm, e.price_usd))).dedup).mergeSort
    (fun x y => decide (x.1 < y.1 ∨ (x.1 = y.1 ∧ x.2 ≤ y.2)))

/-- Source `summary_obs`: per-group event count, mean revenue and mean churn,
then a stable sort by `price_usd`.  On a run with no events,
`pd.DataFrame([])` has no columns at all, so
`groupby(["price_arm", "price_usd"])` raises `KeyError: price_arm`; this is
modelled by the error branch on the empty event list. -/
def summaryObsE (events : List Event) : Except SimError (List ObsRow) :=
  match events with
  | [] => .error (.keyNotFound "price_arm")
  | _ :: _ =>
    let rows := (obsGroupKeys events).map (fun gk =>
      let grp := events.filter (fun e => e.price_arm = gk.1 ∧ e.price_usd = gk.2)
      let n := grp.length
      { price_arm := gk.1
        price_usd := gk.2
        n_events := n
        avg_revenue_30d := (grp.map Event.net_revenue_30d).sum / (n : ℚ)
        churn_rate_30d := (grp.map Event.churn_30d).sum / (n : ℚ) : ObsRow })
    .ok (sortByKey ObsRow.price_usd rows)

/-- The `summary_post` rows, one per posterior in dict order
(`true_price_arms[arm]["price"]` can raise `KeyError`). -/
def postRowsE (trueArms : List (Label × PriceArm)) :
    List (Label × Posterior) → Except SimError (List PostRow)
  | [] => .ok []
  | (l, p) :: rest =>
    match lookupE trueArms l with
    | .error e => .error e
    | .ok armDef =>
      match postRowsE trueArms rest with
      | .error e => .error e
      | .ok rows =>
        .ok ({ price_arm := l
               price_usd := armDef.price
               posterior_mean_revenue := p.alpha / p.beta
               posterior_mean_churn := p.a / (p.a + p.b)
               n_events := p.N : PostRow } :: rows)

/-- Section 4's per-arm Monte Carlo draws:
`np.random.gamma(shape=alpha, scale=1/beta, size=n)` for each arm in dict
order. -/
def mcGammaGo (g : DrawFamily) (n : ℕ) :
    List (Label × Posterior) → ℕ → List (Label × List ℚ) × ℕ
  | [], k => ([], k)
  | (l, p) :: rest, k =>
    let vs := (List.range n).map (fun j => g.gammaV p.alpha (1 / p.beta) (k + j))
    let s := mcGammaGo g n rest (k + n)
    ((l, vs) :: s.1, s.2)

/-- Column `j` of `samples_mat` (one sampled value per arm, arm order). -/
def mcColumn (samples : List (Label × List ℚ)) (j : ℕ) : List ℚ :=
  samples.map (fun p => p.2.getD j 0)

/-- Numpy `np.argmax`: index of the first maximal entry. -/
def firstArgmaxIdx (col : List ℚ) : ℕ :=
  (List.range col.length).foldl
    (fun best j => if col.getD best 0 < col.getD j 0 then j else best) 0

/-- Numpy `np.argsort` (ascending), modelled stably: ties keep index order. -/
def argsortAsc (col : List ℚ) : List ℕ :=
  (List.range col.length).mergeSort (fun i j => decide (col.getD i 0 ≤ col.getD j 0))

/-- Entries `order[-1]` and `order[-2]` of the argsort: indices of the largest and
second-largest sampled values of a column. -/
def top2Idx (col : List ℚ) : ℕ × ℕ :=
  let order := argsortAsc col
  (order.getD (col.length - 1) 0, order.getD (col.length - 2) 0)

/-- Does the uplift loop count column `j` for arm index `i`?  Mirrors the body
of `for j in range(n_samples)`: skip columns with fewer than two rows or a zero
runner-up value; otherwise credit the top arm when its relative uplift over the
runner-up is at least 3%. -/
def upliftCountsCol (samples : List (Label × List ℚ)) (i j : ℕ) : Bool :=
  let col := mcColumn samples j
  if col.length < 2 then false
  else
    let t := top2Idx col
    let vBest := col.getD t.1 0
    let vSecond := col.getD t.2 0
    if vSecond = 0 then false
    else decide ((vBest - vSecond) / vSecond ≥ 3 / 100 ∧ t.1 = i)

/-- Source `prob_best[arm_keys[i]]`: fraction of the `n` Monte Carlo trials whose
first-argmax row is `i`. -/
def probBestOf (samples : List (Label × List ℚ)) (n : ℕ) (i : ℕ) : ℚ :=
  ((List.range n).countP (fun j => firstArgmaxIdx (mcColumn samples j) = i) : ℚ) / (n : ℚ)

/-- Source `uplift_ge_3[arm_keys[i]]`: fraction of trials the uplift loop credits to
arm index `i`. -/
def upliftGe3Of (samples : List (Label × List ℚ)) (n : ℕ) (i : ℕ) : ℚ :=
  ((List.range n).countP (fun j => upliftCountsCol samples i j) : ℚ) / (n : ℚ)

/-- The `prob_df` rows in `arm_keys` order (before the sort by price). -/
def probRowsE (trueArms : List (Label × PriceArm)) (samples : List (Label × List ℚ))
    (n : ℕ) : List (Label × PriceArm) → ℕ → Except SimError (List ProbRow)
  | [], _ => .ok []
  | (l, _) :: rest, i =>
    match lookupE trueArms l with
    | .error e => .error e
    | .ok armDef =>
      match probRowsE trueArms samples n rest (i + 1) with
      | .error e => .error e
      | .ok rows =>
        .ok ({ price_arm := l
               price_usd := armDef.price
               prob_arm_is_best := probBestOf samples n i
               prob_ge3_next := upliftGe3Of samples n i : ProbRow } :: rows)

/-- Section 5's per-arm guardrail rows: 5000 Beta draws per arm against the
final cap, in dict order. -/
def safeRowsGoE (g : DrawFamily) (trueArms : List (Label × PriceArm))
    (cap tau : ℚ) : List (Label × Posterior) → ℕ → Except SimError (List SafeRow × ℕ)
  | [], k => .ok ([], k)
  | (l, p) :: rest, k =>
    match lookupE trueArms l with
    | .error e => .error e
    | .ok armDef =>
      let smp := betaSamples g p.a p.b 5000 k
      let probBad := probExceeds smp.1 cap
      match safeRowsGoE g trueArms cap tau rest smp.2 with
      | .error e => .error e
      | .ok s =>
        .ok ({ price_arm := l
               price_usd := armDef.price
               posterior_mean_churn := p.a / (p.a + p.b)
               prob_churn_violates_guardrail := probBad
               is_safe := decide (probBad < tau) : SafeRow } :: s.1, s.2)

/-- Pandas `.iloc[0]` of a filtered frame: the first matching row, `emptyFrame` when
none exists. -/
def firstWhereE {α : Type} (rows : List α) (p : α → Bool) : Except SimError α :=
  match rows.find? p with
  | some r => .ok r
  | none => .error .emptyFrame

/-- numpy/pandas `round`: half-to-even at exact midpoints, nearest otherwise. -/
def roundHalfEven (y : ℚ) : ℤ :=
  if y - ⌊y⌋ = 1 / 2 then (if Even ⌊y⌋ then ⌊y⌋ else ⌊y⌋ + 1) else round y

/-- Display rounding `.round(4)`. -/
def round4 (x : ℚ) : ℚ := (roundHalfEven (x * 10000) : ℚ) / 10000

/-- The merge of `summary_post` with `safe_df[["price_arm", "is_safe"]]`
followed by the `is_safe == True` filter (a row with no matching guardrail row
gets `NaN` and is dropped by the filter). -/
def safeCandidatesOf (summary_post : List PostRow) (safeRows : List SafeRow) :
    List PostRow :=
  summary_post.filter (fun r =>
    (safeRows.find? (fun s => s.price_arm = r.price_arm)).any SafeRow.is_safe)

/-- The recommendation row: the safe candidate with the highest posterior mean
revenue (descending sort, then `.iloc[0]`), falling back to the baseline row of
`summary_post` when no candidate is safe. -/
def bestRowOf (summary_post : List PostRow) (safeRows : List SafeRow) :
    Except SimError PostRow :=
  let sc := safeCandidatesOf summary_post safeRows
  if sc.isEmpty then
    firstWhereE summary_post (fun r => r.price_arm = "A")
  else
    match sc.mergeSort
        (fun r s => decide (s.posterior_mean_revenue ≤ r.posterior_mean_revenue)) with
    | [] => .error .emptyFrame
    | r :: _ => .ok r

/-- Sections 2–6 of `run_creator_sim_core`: the post-run analysis mapping the
final loop state to the `ExperimentResult` bundle. -/
def analyze (g : DrawFamily) (trueArms : List (Label × PriceArm))
    (creatorName creatorId : String) (maxRel tau : ℚ) (st : SimState) :
    Except SimError ExperimentResult :=
  -- 2) observed results (raises on an empty events frame)
  match summaryObsE st.events with
  | .error e => .error e
  | .ok summary_obs =>
  -- 3) posterior beliefs
  match postRowsE trueArms st.posteriors with
  | .error e => .error e
  | .ok postRowsRaw =>
    let summary_post := sortByKey PostRow.price_usd postRowsRaw
    -- 4) Monte Carlo probabilities (10000 Gamma draws per arm)
    let mc := mcGammaGo g 10000 st.posteriors st.k
    match probRowsE trueArms mc.1 10000 trueArms 0 with
    | .error e => .error e
    | .ok probRowsRaw =>
      let prob_df := sortByKey ProbRow.price_usd probRowsRaw
      -- 5) churn guardrail (final cap from the final baseline posterior)
      match lookupE st.posteriors "A" with
      | .error e => .error e
      | .ok baseParams =>
        let baselineChurnEst := baseParams.a / (baseParams.a + baseParams.b)
        let churnCap := baselineChurnEst * (1 + maxRel)
        match safeRowsGoE g trueArms churnCap tau st.posteriors mc.2 with
        | .error e => .error e
        | .ok safeRes =>
          let safe_df := sortByKey SafeRow.price_usd safeRes.1
          -- recommendation: merge `is_safe` onto `summary_post`, keep safe rows
          match bestRowOf summary_post safeRes.1 with
          | .error e => .error e
          | .ok best_row =>
            match firstWhereE summary_post (fun r => r.price_arm = "A") with
            | .error e => .error e
            | .ok base_row =>
              let best_rev := best_row.posterior_mean_revenue
              let base_rev := base_row.posterior_mean_revenue
              let uplift_pct := (best_rev - base_rev) / base_rev * 100
              match firstWhereE prob_df (fun r => r.price_arm = best_row.price_arm) with
              | .error e => .error e
              | .ok row_prob =>
                let prob_ge_3 := row_prob.prob_ge3_next * 100
                -- 6) report table (left merges on `price_arm`, uplift column,
                -- display rounding)
                let report_table := summary_post.map (fun r =>
                  let pr := probRowsRaw.find? (fun q => q.price_arm = r.price_arm)
                  let sr := safeRes.1.find? (fun s => s.price_arm = r.price_arm)
                  { price_arm := r.price_arm
                    price_usd := r.price_usd
                    posterior_mean_revenue := round4 r.posterior_mean_revenue
                    posterior_mean_churn := round4 r.posterior_mean_churn
                    n_events := r.n_events
                    prob_arm_is_best := (pr.map ProbRow.prob_arm_is_best).map round4
                    prob_ge3_next := (pr.map ProbRow.prob_ge3_next).map round4
                    is_safe := sr.map SafeRow.is_safe
                    uplift_vs_baseline_pct :=
                      round4 ((r.posterior_mean_revenue - base_rev) / base_rev * 100)
                    : ReportRow })
                match lookupE trueArms "A" with
                | .error e => .error e
                | .ok baseArmDef =>
                  .ok { summary_obs := summary_obs
                        summary_post := summary_post
                        prob_df := prob_df
                        safe_df := safe_df
                        report_table := report_table
                        best_price := best_row.price_usd
                        uplift_pct := uplift_pct
                        prob_ge_3 := prob_ge_3
                        baseline_price := baseArmDef.price
                        creator_name := creatorName
                        creator_id := creatorId
                        events_df := st.events }

/-- Source `run_creator_sim_core`: seed the generator, run the event loop, then the
post-run analysis. -/
def runCreatorSimCore (rng : Rng) (creatorName creatorId : String)
    (trueArms : List (Label × PriceArm)) (seed : ℕ) (nEvents : ℕ)
    (maxRel tau : ℚ) : Except SimError ExperimentResult :=
  let g := rng seed
  match runEvents g trueArms creatorId maxRel tau nEvents with
  | .error e => .error e
  | .ok st => analyze g trueArms creatorName creatorId maxRel tau st

/-- Modelled from the spec (claim C3 / §4.1 step 2): the guardrail cap uses the
baseline posterior mean churn, or the configured `true_churn` when the baseline
has fewer than 2 combined pseudo-observations. -/
def specBaselineChurnEstE (trueArms : List (Label × PriceArm)) (baselineArm : Label)
    (base : Posterior) : Except SimError ℚ :=
  if base.a + base.b < 2 then
    match lookupE trueArms baselineArm with
    | .ok armDef => .ok armDef.true_churn
    | .error e => .error e
  else
    .ok (base.a / (base.a + base.b))

/-- Modelled from the spec (claim C3 / §4.1 step 2): adaptive arm selection —
cap = baseline churn estimate × (1 + max_relative_churn_increase); arms with
combined pseudo-count `a + b ≤ 2` are safe; any other arm is safe iff the
fraction of `nChurn` Beta posterior samples above the cap is `< tau`; if no arm
is safe all arms are; among safe arms, one Gamma revenue sample each, highest
sampled value wins. -/
def specStep2Select (g : DrawFamily) (trueArms : List (Label × PriceArm))
    (baselineArm : Label) (maxRel tau : ℚ) (nChurn : ℕ)
    (posteriors : List (Label × Posterior)) (k : ℕ) :
    Except SimError (Label × ℕ) :=
  match lookupE posteriors baselineArm with
  | .error e => .error e
  | .ok base =>
    match specBaselineChurnEstE trueArms baselineArm base with
    | .error e => .error e
    | .ok est =>
      let cap := est * (1 + maxRel)
      let safe := safeArmsGo g cap tau nChurn posteriors k
      let safe2 := if safe.1.isEmpty then posteriors else safe.1
      let sampled := thompsonGo g safe2 safe.2
      match argmaxFirst sampled.1 with
      | some best => .ok (best.1, sampled.2)
      | none => .error .emptyMax


section Helpers

variable {α : Type} {β : Type}

lemma lookup_cons_self (k : Label) (w : β) (xs : List (Label × β)) :
    List.lookup k ((k, w) :: xs) = some w := by
  simp [List.lookup_cons]

lemma lookup_cons_ne {l k : Label} (h : l ≠ k) (w : β) (xs : List (Label × β)) :
    List.lookup l ((k, w) :: xs) = List.lookup l xs := by
  rw [List.lookup_cons]
  have hb : (l == k) = false := beq_eq_false_iff_ne.mpr h
  rw [hb]

lemma keysOf_cons (x : Label × α) (xs : List (Label × α)) :
    keysOf (x :: xs) = x.1 :: keysOf xs := rfl

lemma mem_keys_of_lookup_eq_some {xs : List (Label × α)} {l : Label} {v : α}
    (h : xs.lookup l = some v) : l ∈ keysOf xs := by
  induction xs with
  | nil => simp [List.lookup] at h
  | cons x rest ih =>
    obtain ⟨k, w⟩ := x
    by_cases hk : l = k
    · simp [keysOf, hk]
    · rw [lookup_cons_ne hk] at h
      exact List.mem_cons_of_mem _ (ih h)

lemma lookup_eq_some_of_mem_keys {xs : List (Label × α)} {l : Label}
    (h : l ∈ keysOf xs) : ∃ v, xs.lookup l = some v := by
  induction xs with
  | nil => simp [keysOf] at h
  | cons x rest ih =>
    obtain ⟨k, w⟩ := x
    by_cases hk : l = k
    · exact ⟨w, by rw [hk, lookup_cons_self]⟩
    · rw [keysOf_cons, List.mem_cons] at h
      rcases h with h | h
      · exact absurd h hk
      · obtain ⟨v, hv⟩ := ih h
        exact ⟨v, by rw [lookup_cons_ne hk, hv]⟩

lemma updateAssoc_cons (k : Label) (w : Posterior) (xs : List (Label × Posterior))
    (l : Label) (p : Posterior) :
    updateAssoc ((k, w) :: xs) l p =
      (if k = l then (l, p) else (k, w)) :: updateAssoc xs l p := rfl

lemma keysOf_updateAssoc (ps : List (Label × Posterior)) (l : Label) (p : Posterior) :
    keysOf (updateAssoc ps l p) = keysOf ps := by
  induction ps with
  | nil => rfl
  | cons x rest ih =>
    obtain ⟨k, w⟩ := x
    rw [updateAssoc_cons]
    by_cases hk : k = l
    · rw [if_pos hk, keysOf_cons, keysOf_cons, ih, hk]
    · rw [if_neg hk, keysOf_cons, keysOf_cons, ih]

lemma keysOf_initPosteriors (arms : List (Label × PriceArm)) :
    keysOf (initPosteriors arms) = keysOf arms := by
  induction arms with
  | nil => rfl
  | cons x rest ih =>
    obtain ⟨k, w⟩ := x
    show k :: keysOf (initPosteriors rest) = k :: keysOf rest
    rw [ih]

lemma lookup_initPosteriors {arms : List (Label × PriceArm)} {l : Label}
    (h : l ∈ keysOf arms) :
    (initPosteriors arms).lookup l = some ⟨1, 1, 1, 1, 0⟩ := by
  induction arms with
  | nil => simp [keysOf] at h
  | cons x rest ih =>
    obtain ⟨k, w⟩ := x
    show List.lookup l ((k, (⟨1, 1, 1, 1, 0⟩ : Posterior)) :: initPosteriors rest)
      = some ⟨1, 1, 1, 1, 0⟩
    by_cases hk : l = k
    · rw [hk, lookup_cons_self]
    · rw [lookup_cons_ne hk]
      rw [keysOf_cons, List.mem_cons] at h
      rcases h with h | h
      · exact absurd h hk
      · exact ih h

lemma lookup_updateAssoc_self {ps : List (Label × Posterior)} {l : Label}
    {p₀ : Posterior} (h : ps.lookup l = some p₀) (p : Posterior) :
    (updateAssoc ps l p).lookup l = some p := by
  induction ps with
  | nil => simp [List.lookup] at h
  | cons x rest ih =>
    obtain ⟨k, w⟩ := x
    rw [updateAssoc_cons]
    by_cases hk : k = l
    · rw [if_pos hk]
      exact lookup_cons_self l p _
    · have hlk : l ≠ k := fun hc => hk hc.symm
      rw [if_neg hk, lookup_cons_ne hlk]
      rw [lookup_cons_ne hlk] at h
      exact ih h

lemma lookup_updateAssoc_ne (ps : List (Label × Posterior)) {l l' : Label}
    (p : Posterior) (h : l' ≠ l) :
    (updateAssoc ps l p).lookup l' = ps.lookup l' := by
  induction ps with
  | nil => rfl
  | cons x rest ih =>
    obtain ⟨k, w⟩ := x
    rw [updateAssoc_cons]
    by_cases hk : k = l
    · rw [if_pos hk]
      have h1 : l' ≠ l := h
      rw [lookup_cons_ne h1]
      have h2 : l' ≠ k := fun hc => h (hc.trans hk)
      rw [lookup_cons_ne h2, ih]
    · rw [if_neg hk]
      by_cases hl : l' = k
      · rw [hl, lookup_cons_self, lookup_cons_self]
      · rw [lookup_cons_ne hl, lookup_cons_ne hl, ih]

lemma argmaxFirst_isSome {xs : List (Label × ℚ)} (h : xs ≠ []) :
    ∃ y, argmaxFirst xs = some y := by
  cases xs with
  | nil => exact absurd rfl h
  | cons x rest =>
    cases hr : argmaxFirst rest with
    | none => exact ⟨x, by simp [argmaxFirst, hr]⟩
    | some y =>
      by_cases hxy : x.2 < y.2
      · exact ⟨y, by simp [argmaxFirst, hr, hxy]⟩
      · exact ⟨x, by simp [argmaxFirst, hr, hxy]⟩

lemma argmaxFirst_mem {xs : List (Label × ℚ)} {y : Label × ℚ}
    (h : argmaxFirst xs = some y) : y ∈ xs := by
  induction xs generalizing y with
  | nil => simp [argmaxFirst] at h
  | cons x rest ih =>
    cases hr : argmaxFirst rest with
    | none =>
      simp only [argmaxFirst, hr] at h
      injection h with h
      exact h ▸ List.mem_cons_self x rest
    | some z =>
      simp only [argmaxFirst, hr] at h
      by_cases hxz : x.2 < z.2
      · rw [if_pos hxz] at h
        injection h with h
        exact List.mem_cons_of_mem _ (h ▸ ih hr)
      · rw [if_neg hxz] at h
        injection h with h
        exact h ▸ List.mem_cons_self x rest

lemma argmaxFirst_is_max {xs : List (Label × ℚ)} {y : Label × ℚ}
    (h : argmaxFirst xs = some y) : ∀ z ∈ xs, z.2 ≤ y.2 := by
  induction xs generalizing y with
  | nil => simp [argmaxFirst] at h
  | cons x rest ih =>
    intro z hz
    cases hr : argmaxFirst rest with
    | none =>
      simp only [argmaxFirst, hr] at h
      injection h with h
      have hrest : rest = [] := by
        cases rest with
        | nil => rfl
        | cons w ws =>
          exfalso
          obtain ⟨u, hu⟩ := argmaxFirst_isSome (List.cons_ne_nil w ws)
          rw [hu] at hr
          exact Option.noConfusion hr
      subst hrest
      have hzx : z = x := by simpa using hz
      rw [hzx, ← h]
    | some w =>
      simp only [argmaxFirst, hr] at h
      have hwmax := ih hr
      rcases List.mem_cons.mp hz with hzx | hzr
      · subst hzx
        by_cases hxw : z.2 < w.2
        · rw [if_pos hxw] at h
          injection h with h
          exact le_of_lt (h ▸ hxw)
        · rw [if_neg hxw] at h
          injection h with h
          rw [← h]
      · have hw := hwmax z hzr
        by_cases hxw : x.2 < w.2
        · rw [if_pos hxw] at h
          injection h with h
          exact h ▸ hw
        · rw [if_neg hxw] at h
          injection h with h
          rw [← h]
          exact le_trans hw (le_of_not_lt hxw)

lemma thompsonGo_keys (g : DrawFamily) (xs : List (Label × Posterior)) (k : ℕ) :
    keysOf (thompsonGo g xs k).1 = keysOf xs := by
  induction xs generalizing k with
  | nil => rfl
  | cons x rest ih =>
    obtain ⟨l, p⟩ := x
    show l :: keysOf (thompsonGo g rest (k + 1)).1 = l :: keysOf rest
    rw [ih]

lemma safeArmsGo_subset (g : DrawFamily) (cap tau : ℚ) (nChurn : ℕ)
    (xs : List (Label × Posterior)) (k : ℕ) :
    ∀ x ∈ (safeArmsGo g cap tau nChurn xs k).1, x ∈ xs := by
  induction xs generalizing k with
  | nil => intro x hx; simp [safeArmsGo] at hx
  | cons q rest ih =>
    obtain ⟨l, p⟩ := q
    intro x hx
    rw [safeArmsGo] at hx
    by_cases h1 : p.a + p.b ≤ 2
    · rw [if_pos h1] at hx
      rcases List.mem_cons.mp hx with h | h
      · exact h ▸ List.mem_cons_self _ _
      · exact List.mem_cons_of_mem _ (ih k x h)
    · rw [if_neg h1] at hx
      by_cases h2 : probExceeds (betaSamples g p.a p.b nChurn k).1 cap < tau
      · rw [if_pos h2] at hx
        rcases List.mem_cons.mp hx with h | h
        · exact h ▸ List.mem_cons_self _ _
        · exact List.mem_cons_of_mem _ (ih _ x h)
      · rw [if_neg h2] at hx
        exact List.mem_cons_of_mem _ (ih _ x hx)

end Helpers

section StepLemmas

lemma lookupE_ok_iff {α : Type} {xs : List (Label × α)} {l : Label} {v : α} :
    lookupE xs l = .ok v ↔ xs.lookup l = some v := by
  unfold lookupE
  cases h : xs.lookup l with
  | none => simp
  | some w => simp

lemma mem_keysOf_of_mem {α : Type} {xs : List (Label × α)} {x : Label × α}
    (h : x ∈ xs) : x.1 ∈ keysOf xs :=
  List.mem_map_of_mem Prod.fst h

lemma keysOf_ne_nil {α : Type} {xs : List (Label × α)} {l : Label}
    (h : l ∈ keysOf xs) : xs ≠ [] := by
  intro hc
  subst hc
  simp [keysOf] at h

/-- Elimination form of one loop iteration: a successful `simStep` decomposes
into the selected arm, the conjugate update of exactly that arm, and the
appended event record. -/
lemma simStep_ok_elim {g : DrawFamily} {arms : List (Label × PriceArm)}
    {cid : String} {mr tau : ℚ} {st : SimState} {i : ℕ} {st' : SimState}
    (h : simStep g arms cid mr tau st i = .ok st') :
    ∃ armKey k0 armDef p,
      selectArm g arms mr tau st.posteriors st.k i = .ok (armKey, k0) ∧
      arms.lookup armKey = some armDef ∧
      st.posteriors.lookup armKey = some p ∧
      st'.posteriors = updateAssoc st.posteriors armKey
        ⟨p.alpha + (simulateOutcome g armDef k0).1.1, p.beta + 1,
         p.a + (simulateOutcome g armDef k0).1.2,
         p.b + (1 - (simulateOutcome g armDef k0).1.2), p.N + 1⟩ ∧
      st'.events = st.events ++
        [⟨i, cid, subId i, g.randintV 1 31 (simulateOutcome g armDef k0).2, armKey,
          armDef.price, (simulateOutcome g armDef k0).1.1,
          (simulateOutcome g armDef k0).1.2⟩] ∧
      st'.k = (simulateOutcome g armDef k0).2 + 1 := by
  unfold simStep at h
  cases hsel : selectArm g arms mr tau st.posteriors st.k i with
  | error e => rw [hsel] at h; exact absurd h (by simp)
  | ok pr =>
    obtain ⟨armKey, k0⟩ := pr
    rw [hsel] at h
    dsimp only at h
    cases ha : lookupE arms armKey with
    | error e => rw [ha] at h; exact absurd h (by simp)
    | ok armDef =>
      cases hp : lookupE st.posteriors armKey with
      | error e => rw [ha, hp] at h; exact absurd h (by simp)
      | ok p =>
        rw [ha, hp] at h
        dsimp only at h
        injection h with h
        subst h
        exact ⟨armKey, k0, armDef, p, rfl, lookupE_ok_iff.mp ha,
          lookupE_ok_iff.mp hp, rfl, rfl, rfl⟩

/-- Introduction form: when arm selection and both dictionary lookups succeed,
the iteration succeeds. -/
lemma simStep_ok_intro {g : DrawFamily} {arms : List (Label × PriceArm)}
    {cid : String} {mr tau : ℚ} {st : SimState} {i : ℕ} {armKey : Label}
    {k0 : ℕ} {armDef : PriceArm} {p : Posterior}
    (hsel : selectArm g arms mr tau st.posteriors st.k i = .ok (armKey, k0))
    (ha : arms.lookup armKey = some armDef)
    (hp : st.posteriors.lookup armKey = some p) :
    ∃ st', simStep g arms cid mr tau st i = .ok st' := by
  unfold simStep
  rw [hsel]
  dsimp only
  rw [lookupE_ok_iff.mpr ha, lookupE_ok_iff.mpr hp]
  dsimp only
  exact ⟨_, rfl⟩

lemma runEvents_succ (g : DrawFamily) (arms : List (Label × PriceArm))
    (cid : String) (mr tau : ℚ) (t : ℕ) :
    runEvents g arms cid mr tau (t + 1) =
      match runEvents g arms cid mr tau t with
      | .error e => .error e
      | .ok st => simStep g arms cid mr tau st (t + 1) := rfl

lemma runEvents_succ_ok_elim {g : DrawFamily} {arms : List (Label × PriceArm)}
    {cid : String} {mr tau : ℚ} {t : ℕ} {st' : SimState}
    (h : runEvents g arms cid mr tau (t + 1) = .ok st') :
    ∃ st, runEvents g arms cid mr tau t = .ok st ∧
      simStep g arms cid mr tau st (t + 1) = .ok st' := by
  rw [runEvents_succ] at h
  cases hr : runEvents g arms cid mr tau t with
  | error e => rw [hr] at h; exact absurd h (by simp)
  | ok st => rw [hr] at h; exact ⟨st, rfl, h⟩

/-- The event log after `t` iterations holds exactly `t` records. -/
lemma runEvents_events_length {g : DrawFamily} {arms : List (Label × PriceArm)}
    {cid : String} {mr tau : ℚ} :
    ∀ {t : ℕ} {st : SimState}, runEvents g arms cid mr tau t = .ok st →
      st.events.length = t := by
  intro t
  induction t with
  | zero =>
    intro st h
    injection h with h
    rw [← h]
    rfl
  | succ t ih =>
    intro st' h
    obtain ⟨st, hst, hstep⟩ := runEvents_succ_ok_elim h
    obtain ⟨armKey, k0, armDef, p, hsel, ha, hp, hposts, hev, hk⟩ :=
      simStep_ok_elim hstep
    rw [hev, List.length_append, ih hst]
    rfl

/-- Keys of the posteriors dict never change across the loop. -/
lemma runEvents_keys {g : DrawFamily} {arms : List (Label × PriceArm)}
    {cid : String} {mr tau : ℚ} :
    ∀ {t : ℕ} {st : SimState}, runEvents g arms cid mr tau t = .ok st →
      keysOf st.posteriors = keysOf arms := by
  intro t
  induction t with
  | zero =>
    intro st h
    injection h with h
    rw [← h]
    exact keysOf_initPosteriors arms
  | succ t ih =>
    intro st' h
    obtain ⟨st, hst, hstep⟩ := runEvents_succ_ok_elim h
    obtain ⟨armKey, k0, armDef, p, _, _, _, hposts, _, _⟩ := simStep_ok_elim hstep
    rw [hposts, keysOf_updateAssoc]
    exact ih hst

end StepLemmas

section Counting

/-- Number of events among the first `t` that forced exploration assigns to the
arm at index `j` (event `i` goes to index `(i - 1) % n`). -/
def numForced (n j t : ℕ) : ℕ :=
  (List.range t).countP (fun m => decide (m % n = j))

lemma numForced_zero (n j : ℕ) : numForced n j 0 = 0 := rfl

lemma numForced_succ (n j t : ℕ) :
    numForced n j (t + 1) = numForced n j t + (if t % n = j then 1 else 0) := by
  unfold numForced
  rw [List.range_succ, List.countP_append]
  simp [List.countP_cons]

lemma countP_eq_range (n j : ℕ) (hj : j < n) :
    (List.range n).countP (fun m => decide (m = j)) = 1 := by
  induction n with
  | zero => omega
  | succ n ih =>
    rw [List.range_succ, List.countP_append]
    by_cases h : j = n
    · subst h
      have hz : (List.range j).countP (fun m => decide (m = j)) = 0 := by
        rw [List.countP_eq_zero]
        intro m hm
        simp only [decide_eq_true_eq]
        exact Nat.ne_of_lt (List.mem_range.mp hm)
      simp [hz]
    · have hj' : j < n := by omega
      have hn : ¬(n = j) := fun hc => h hc.symm
      simp [ih hj', List.countP_cons, hn]

lemma numForced_mul (n j : ℕ) (hj : j < n) : ∀ k : ℕ, numForced n j (n * k) = k := by
  intro k
  induction k with
  | zero => simp [numForced]
  | succ k ih =>
    have h1 : n * (k + 1) = n * k + n := by ring
    rw [h1]
    unfold numForced
    rw [List.range_add, List.countP_append]
    unfold numForced at ih
    rw [ih, List.countP_map]
    have heq : ((fun m => decide (m % n = j)) ∘ (fun x => n * k + x)) =
        fun m => decide ((n * k + m) % n = j) := rfl
    rw [heq]
    have hcongr : (List.range n).countP (fun m => decide ((n * k + m) % n = j)) =
        (List.range n).countP (fun m => decide (m = j)) := by
      apply List.countP_congr
      intro m hm
      have hmn : m < n := List.mem_range.mp hm
      simp only [decide_eq_true_eq]
      rw [Nat.mul_add_mod, Nat.mod_eq_of_lt hmn]
    rw [hcongr, countP_eq_range n j hj]

end Counting

section RunLemmas

lemma ne_nil_of_keys_ne_nil {α : Type} {xs : List (Label × α)}
    (h : keysOf xs ≠ []) : xs ≠ [] := by
  intro hc
  subst hc
  exact h rfl

lemma keysOf_eq_nil_iff {α : Type} {xs : List (Label × α)} :
    keysOf xs = [] ↔ xs = [] := by
  unfold keysOf
  exact List.map_eq_nil_iff

/-- Lemma: `choose_price_arm` always succeeds when the baseline label is a key of the
(posteriors and arms) dictionaries, and the chosen arm is one of the keys. -/
lemma choosePriceArm_ok {g : DrawFamily} {arms : List (Label × PriceArm)}
    {mr tau : ℚ} {nChurn : ℕ} {posts : List (Label × Posterior)} {k : ℕ}
    (hkeys : keysOf posts = keysOf arms) (hA : "A" ∈ keysOf arms) :
    ∃ armKey k', choosePriceArm g arms "A" mr tau nChurn posts k = .ok (armKey, k') ∧
      armKey ∈ keysOf posts := by
  have hAp : "A" ∈ keysOf posts := by rw [hkeys]; exact hA
  obtain ⟨base, hbase⟩ := lookup_eq_some_of_mem_keys hAp
  have hbaseE : lookupE posts "A" = .ok base := lookupE_ok_iff.mpr hbase
  have hest : ∃ est, baselineChurnEstE arms "A" base = .ok est := by
    unfold baselineChurnEstE
    by_cases hgt : base.a + base.b > 2
    · rw [if_pos hgt]; exact ⟨_, rfl⟩
    · rw [if_neg hgt]
      obtain ⟨armDef, hA2⟩ := lookup_eq_some_of_mem_keys hA
      rw [lookupE_ok_iff.mpr hA2]
      exact ⟨_, rfl⟩
  obtain ⟨est, hestE⟩ := hest
  unfold choosePriceArm
  rw [hbaseE]
  dsimp only
  rw [hestE]
  dsimp only
  have hne : posts ≠ [] := keysOf_ne_nil hAp
  set safe := safeArmsGo g (est * (1 + mr)) tau nChurn posts k with hsafeDef
  set safe2 := (if safe.1.isEmpty then posts else safe.1) with hsafe2Def
  have hs2ne : safe2 ≠ [] := by
    rw [hsafe2Def]
    by_cases he : safe.1.isEmpty
    · rw [if_pos he]; exact hne
    · rw [if_neg he]
      intro hc
      rw [hc] at he
      exact he rfl
  set sampled := thompsonGo g safe2 safe.2 with hsampledDef
  have hsampne : sampled.1 ≠ [] := by
    intro hc
    have := thompsonGo_keys g safe2 safe.2
    rw [← hsampledDef, hc] at this
    exact hs2ne (keysOf_eq_nil_iff.mp this.symm)
  obtain ⟨y, hy⟩ := argmaxFirst_isSome hsampne
  rw [hy]
  refine ⟨y.1, sampled.2, rfl, ?_⟩
  have hymem := argmaxFirst_mem hy
  have hykey : y.1 ∈ keysOf sampled.1 := mem_keysOf_of_mem hymem
  rw [hsampledDef, thompsonGo_keys] at hykey
  rw [hsafe2Def] at hykey
  by_cases he : safe.1.isEmpty
  · rw [if_pos he] at hykey; exact hykey
  · rw [if_neg he] at hykey
    obtain ⟨q, hq, hq1⟩ := List.mem_map.mp hykey
    have hqp : q ∈ posts := safeArmsGo_subset g (est * (1 + mr)) tau nChurn posts k q hq
    rw [← hq1]
    exact mem_keysOf_of_mem hqp

/-- During forced exploration the selected arm is
`arm_list[(i - 1) % len(arm_list)]` and no randomness is consumed. -/
lemma selectArm_forced {g : DrawFamily} {arms : List (Label × PriceArm)}
    {mr tau : ℚ} {posts : List (Label × Posterior)} {k i : ℕ}
    (hi : i ≤ (keysOf arms).length * 10) (hne : (keysOf arms).length ≠ 0)
    (hlt : (i - 1) % (keysOf arms).length < (keysOf arms).length) :
    selectArm g arms mr tau posts k i =
      .ok ((keysOf arms).get ⟨(i - 1) % (keysOf arms).length, hlt⟩, k) := by
  unfold selectArm
  rw [if_pos hi, if_neg hne, List.get?_eq_get hlt]

/-- Arm selection always succeeds when the baseline label is present, and the
selected arm is a key of the arms dict. -/
lemma selectArm_ok {g : DrawFamily} {arms : List (Label × PriceArm)}
    {mr tau : ℚ} {posts : List (Label × Posterior)} {k i : ℕ}
    (hkeys : keysOf posts = keysOf arms) (hA : "A" ∈ keysOf arms) :
    ∃ armKey k', selectArm g arms mr tau posts k i = .ok (armKey, k') ∧
      armKey ∈ keysOf arms := by
  have hlen : (keysOf arms).length ≠ 0 := by
    intro hc
    rw [List.length_eq_zero] at hc
    rw [hc] at hA
    exact List.not_mem_nil _ hA
  by_cases hforced : i ≤ (keysOf arms).length * 10
  · have hlt : (i - 1) % (keysOf arms).length < (keysOf arms).length :=
      Nat.mod_lt _ (Nat.pos_of_ne_zero hlen)
    rw [selectArm_forced hforced hlen hlt]
    exact ⟨_, k, rfl, List.get_mem _ _ _⟩
  · unfold selectArm
    rw [if_neg hforced]
    obtain ⟨armKey, k', hch, hmem⟩ := choosePriceArm_ok hkeys hA
    refine ⟨armKey, k', hch, ?_⟩
    rw [← hkeys]
    exact hmem

/-- The loop never fails when the baseline label `"A"` is among the arms. -/
lemma runEvents_ok {g : DrawFamily} {arms : List (Label × PriceArm)}
    {cid : String} {mr tau : ℚ} (hA : "A" ∈ keysOf arms) :
    ∀ t, ∃ st, runEvents g arms cid mr tau t = .ok st := by
  intro t
  induction t with
  | zero => exact ⟨_, rfl⟩
  | succ t ih =>
    obtain ⟨st, hst⟩ := ih
    have hkeys := runEvents_keys hst
    obtain ⟨armKey, k0, hsel, hmem⟩ := selectArm_ok hkeys hA
    obtain ⟨armDef, ha⟩ := lookup_eq_some_of_mem_keys hmem
    have hmemp : armKey ∈ keysOf st.posteriors := by rw [hkeys]; exact hmem
    obtain ⟨p, hp⟩ := lookup_eq_some_of_mem_keys hmemp
    obtain ⟨st', hstep⟩ := @simStep_ok_intro g arms cid mr tau st (t + 1)
      armKey k0 armDef p hsel ha hp
    rw [runEvents_succ, hst]
    exact ⟨st', hstep⟩

/-- The simulated churn flag is always in `[0, 1]`. -/
lemma simOutcome_churn_mem (g : DrawFamily) (arm : PriceArm) (k : ℕ) :
    0 ≤ (simulateOutcome g arm k).1.2 ∧ (simulateOutcome g arm k).1.2 ≤ 1 := by
  unfold simulateOutcome
  dsimp only
  by_cases h : g.uniform (k + 1) < arm.true_churn
  · rw [if_pos h]; norm_num
  · rw [if_neg h]; norm_num

/-- One step never decreases any posterior parameter of any arm (the revenue
hypothesis reflects that `np.random.lognormal` draws are nonnegative). -/
lemma simStep_mono {g : DrawFamily} {arms : List (Label × PriceArm)}
    {cid : String} {mr tau : ℚ} {st : SimState} {i : ℕ} {st' : SimState}
    (h : simStep g arms cid mr tau st i = .ok st')
    (hrev : ∀ m s2 k, 0 ≤ g.lognormalMean m s2 k)
    {l : Label} {p p' : Posterior}
    (hp : st.posteriors.lookup l = some p)
    (hp' : st'.posteriors.lookup l = some p') :
    p.alpha ≤ p'.alpha ∧ p.beta ≤ p'.beta ∧ p.a ≤ p'.a ∧ p.b ≤ p'.b ∧ p.N ≤ p'.N := by
  obtain ⟨armKey, k0, armDef, p0, hsel, ha, hp0, hposts, hev, hk⟩ := simStep_ok_elim h
  by_cases hl : l = armKey
  · subst hl
    rw [hp] at hp0
    injection hp0 with hp0
    subst hp0
    rw [hposts, lookup_updateAssoc_self hp] at hp'
    injection hp' with hp'
    subst hp'
    have hc := simOutcome_churn_mem g armDef k0
    have hr := hrev armDef.true_mean_revenue (21 / 100) k0
    have hrge : 0 ≤ (simulateOutcome g armDef k0).1.1 := by
      unfold simulateOutcome
      dsimp only
      exact hr
    refine ⟨?_, ?_, ?_, ?_, ?_⟩ <;> dsimp only
    · linarith
    · linarith
    · linarith [hc.1]
    · linarith [hc.2]
    · omega
  · rw [hposts, lookup_updateAssoc_ne _ _ hl, hp] at hp'
    injection hp' with hp'
    subst hp'
    exact ⟨le_refl _, le_refl _, le_refl _, le_refl _, le_refl _⟩

/-- One step never decreases any arm's event counter (no hypotheses on the
generator needed). -/
lemma simStep_N_le {g : DrawFamily} {arms : List (Label × PriceArm)}
    {cid : String} {mr tau : ℚ} {st : SimState} {i : ℕ} {st' : SimState}
    (h : simStep g arms cid mr tau st i = .ok st')
    {l : Label} {p p' : Posterior}
    (hp : st.posteriors.lookup l = some p)
    (hp' : st'.posteriors.lookup l = some p') :
    p.N ≤ p'.N := by
  obtain ⟨armKey, k0, armDef, p0, hsel, ha, hp0, hposts, hev, hk⟩ := simStep_ok_elim h
  by_cases hl : l = armKey
  · subst hl
    rw [hp] at hp0
    injection hp0 with hp0
    subst hp0
    rw [hposts, lookup_updateAssoc_self hp] at hp'
    injection hp' with hp'
    subst hp'
    dsimp only
    omega
  · rw [hposts, lookup_updateAssoc_ne _ _ hl, hp] at hp'
    injection hp' with hp'
    subst hp'
    exact le_refl _

/-- Event counters never decrease along the run. -/
lemma runEvents_N_mono {g : DrawFamily} {arms : List (Label × PriceArm)}
    {cid : String} {mr tau : ℚ} {t t' : ℕ} (htt : t ≤ t') :
    ∀ {st st' : SimState} {l : Label} {p p' : Posterior},
      runEvents g arms cid mr tau t = .ok st →
      runEvents g arms cid mr tau t' = .ok st' →
      st.posteriors.lookup l = some p →
      st'.posteriors.lookup l = some p' →
      p.N ≤ p'.N := by
  induction t' with
  | zero =>
    intro st st' l p p' hst hst' hp hp'
    have ht0 : t = 0 := by omega
    subst ht0
    rw [hst] at hst'
    injection hst' with hst'
    subst hst'
    rw [hp] at hp'
    injection hp' with hp'
    subst hp'
    exact le_refl _
  | succ t' ih =>
    intro st st' l p p' hst hst' hp hp'
    by_cases heq : t = t' + 1
    · subst heq
      rw [hst] at hst'
      injection hst' with hst'
      subst hst'
      rw [hp] at hp'
      injection hp' with hp'
      subst hp'
      exact le_refl _
    · have htle : t ≤ t' := by omega
      obtain ⟨stm, hstm, hstep⟩ := runEvents_succ_ok_elim hst'
      have hl : l ∈ keysOf stm.posteriors := by
        rw [runEvents_keys hstm, ← runEvents_keys hst]
        exact mem_keys_of_lookup_eq_some hp
      obtain ⟨pm, hpm⟩ := lookup_eq_some_of_mem_keys hl
      exact le_trans (ih htle hst hstm hp hpm) (simStep_N_le hstep hpm hp')

end RunLemmas

section InvariantLemmas

/-- During forced exploration, each arm's event counter tracks the round-robin
assignment count exactly. -/
lemma runEvents_forced_N {g : DrawFamily} {arms : List (Label × PriceArm)}
    {cid : String} {mr tau : ℚ} (hnd : (keysOf arms).Nodup) :
    ∀ t, t ≤ (keysOf arms).length * 10 →
      ∀ {st : SimState}, runEvents g arms cid mr tau t = .ok st →
      ∀ j (hj : j < (keysOf arms).length),
        ∃ p, st.posteriors.lookup ((keysOf arms).get ⟨j, hj⟩) = some p ∧
          p.N = numForced (keysOf arms).length j t := by
  intro t
  induction t with
  | zero =>
    intro _ st h j hj
    injection h with h
    rw [← h]
    dsimp only
    exact ⟨_, lookup_initPosteriors (List.get_mem _ _ _), rfl⟩
  | succ t ih =>
    intro hle st' h j hj
    obtain ⟨st, hst, hstep⟩ := runEvents_succ_ok_elim h
    have hts : t ≤ (keysOf arms).length * 10 := le_trans (Nat.le_succ t) hle
    obtain ⟨armKey, k0, armDef, p0, hsel, ha, hp0, hposts, hev, hk⟩ :=
      simStep_ok_elim hstep
    have hne : (keysOf arms).length ≠ 0 := by omega
    have hlt : (t + 1 - 1) % (keysOf arms).length < (keysOf arms).length :=
      Nat.mod_lt _ (Nat.pos_of_ne_zero hne)
    have hforced := @selectArm_forced g arms mr tau st.posteriors st.k (t + 1)
      hle hne hlt
    rw [hforced] at hsel
    injection hsel with hsel
    have harm : armKey = (keysOf arms).get ⟨(t + 1 - 1) % (keysOf arms).length, hlt⟩ :=
      (congrArg Prod.fst hsel).symm
    have htsub : t + 1 - 1 = t := rfl
    by_cases hjt : j = t % (keysOf arms).length
    · -- the updated arm
      obtain ⟨p, hp, hN⟩ := ih hts hst j hj
      have hget : (keysOf arms).get ⟨j, hj⟩ = armKey := by
        rw [harm]
        congr 1
        exact Fin.ext hjt
      rw [hget] at hp
      rw [hp] at hp0
      injection hp0 with hp0
      subst hp0
      refine ⟨_, by rw [hget, hposts]; exact lookup_updateAssoc_self hp _, ?_⟩
      dsimp only
      rw [hN, numForced_succ]
      rw [if_pos hjt.symm]
    · -- any other arm is untouched
      obtain ⟨p, hp, hN⟩ := ih hts hst j hj
      have hget : (keysOf arms).get ⟨j, hj⟩ ≠ armKey := by
        rw [harm]
        intro hc
        have hfin := (hnd.get_inj_iff).mp hc
        have hval := congrArg Fin.val hfin
        simp only [Nat.add_sub_cancel] at hval
        exact hjt hval
      refine ⟨p, ?_, ?_⟩
      · rw [hposts, lookup_updateAssoc_ne _ _ hget]
        exact hp
      · rw [hN, numForced_succ]
        have hne2 : ¬(t % (keysOf arms).length = j) := fun hc => hjt hc.symm
        rw [if_neg hne2]
        omega

/-- At the end of forced exploration every arm has been played exactly 10
times. -/
lemma runEvents_N_at_forced_end {g : DrawFamily} {arms : List (Label × PriceArm)}
    {cid : String} {mr tau : ℚ} (hnd : (keysOf arms).Nodup) {st : SimState}
    (h : runEvents g arms cid mr tau ((keysOf arms).length * 10) = .ok st) :
    ∀ l ∈ keysOf arms, ∃ p, st.posteriors.lookup l = some p ∧ p.N = 10 := by
  intro l hl
  obtain ⟨⟨j, hj⟩, hget⟩ := List.mem_iff_get.mp hl
  obtain ⟨p, hp, hN⟩ := runEvents_forced_N hnd _ le_rfl h j hj
  rw [hget] at hp
  refine ⟨p, hp, ?_⟩
  rw [hN]
  exact numForced_mul _ j hj 10

lemma lookup_init_elim {arms : List (Label × PriceArm)} {l : Label} {p : Posterior}
    (h : (initPosteriors arms).lookup l = some p) : p = ⟨1, 1, 1, 1, 0⟩ := by
  induction arms with
  | nil => simp [initPosteriors, List.lookup] at h
  | cons x rest ih =>
    obtain ⟨k, w⟩ := x
    by_cases hk : l = k
    · rw [show initPosteriors ((k, w) :: rest) =
          (k, (⟨1, 1, 1, 1, 0⟩ : Posterior)) :: initPosteriors rest from rfl,
        hk, lookup_cons_self] at h
      injection h with h
      exact h.symm
    · rw [show initPosteriors ((k, w) :: rest) =
          (k, (⟨1, 1, 1, 1, 0⟩ : Posterior)) :: initPosteriors rest from rfl,
        lookup_cons_ne hk] at h
      exact ih h

/-- Structural posterior invariant: `beta = N + 1` and `a + b = N + 2` at every
point of the run. -/
lemma runEvents_invariant {g : DrawFamily} {arms : List (Label × PriceArm)}
    {cid : String} {mr tau : ℚ} :
    ∀ {t : ℕ} {st : SimState}, runEvents g arms cid mr tau t = .ok st →
      ∀ {l : Label} {p : Posterior}, st.posteriors.lookup l = some p →
        p.beta = (p.N : ℚ) + 1 ∧ p.a + p.b = (p.N : ℚ) + 2 := by
  intro t
  induction t with
  | zero =>
    intro st h l p hp
    injection h with h
    rw [← h] at hp
    dsimp only at hp
    rw [lookup_init_elim hp]
    norm_num
  | succ t ih =>
    intro st' h l p hp
    obtain ⟨st, hst, hstep⟩ := runEvents_succ_ok_elim h
    obtain ⟨armKey, k0, armDef, p0, hsel, ha, hp0, hposts, hev, hk⟩ :=
      simStep_ok_elim hstep
    by_cases hl : l = armKey
    · subst hl
      rw [hposts, lookup_updateAssoc_self hp0] at hp
      injection hp with hp
      obtain ⟨hb, hab⟩ := ih hst hp0
      rw [← hp]
      dsimp only
      constructor
      · rw [hb]; push_cast; ring
      · have : p0.a + (simulateOutcome g armDef k0).1.2 +
            (p0.b + (1 - (simulateOutcome g armDef k0).1.2)) = p0.a + p0.b + 1 := by
          ring
        rw [this, hab]; push_cast; ring
    · rw [hposts, lookup_updateAssoc_ne _ _ hl] at hp
      exact ih hst hp

/-- Test `a + b ≤ 2` characterizes arms with no events, given the structural
invariant. -/
lemma ab_le_two_iff {p : Posterior} (h : p.a + p.b = (p.N : ℚ) + 2) :
    p.a + p.b ≤ 2 ↔ p.N = 0 := by
  rw [h]
  constructor
  · intro hle
    have h0 : (p.N : ℚ) ≤ 0 := by linarith
    exact_mod_cast le_antisymm (by exact_mod_cast h0) (Nat.zero_le _)
  · intro h0
    rw [h0]
    norm_num

/-- The revenue posterior shape never drops below its prior `alpha0 = 1`
(lognormal draws are nonnegative). -/
lemma runEvents_alpha_ge_one {g : DrawFamily} {arms : List (Label × PriceArm)}
    {cid : String} {mr tau : ℚ}
    (hrev : ∀ m s2 k, 0 ≤ g.lognormalMean m s2 k) :
    ∀ {t : ℕ} {st : SimState}, runEvents g arms cid mr tau t = .ok st →
      ∀ {l : Label} {p : Posterior}, st.posteriors.lookup l = some p →
        1 ≤ p.alpha := by
  intro t
  induction t with
  | zero =>
    intro st h l p hp
    injection h with h
    rw [← h] at hp
    dsimp only at hp
    rw [lookup_init_elim hp]
  | succ t ih =>
    intro st' h l p hp
    obtain ⟨st, hst, hstep⟩ := runEvents_succ_ok_elim h
    obtain ⟨armKey, k0, armDef, p0, hsel, ha, hp0, hposts, hev, hk⟩ :=
      simStep_ok_elim hstep
    by_cases hl : l = armKey
    · subst hl
      rw [hposts, lookup_updateAssoc_self hp0] at hp
      injection hp with hp
      have h1 := ih hst hp0
      have h2 : 0 ≤ (simulateOutcome g armDef k0).1.1 := by
        unfold simulateOutcome
        dsimp only
        exact hrev armDef.true_mean_revenue (21 / 100) k0
      rw [← hp]
      dsimp only
      linarith
    · rw [hposts, lookup_updateAssoc_ne _ _ hl] at hp
      exact ih hst hp

/-- Total event count over the posteriors dict. -/
def sumN (ps : List (Label × Posterior)) : ℕ :=
  (ps.map (fun q => q.2.N)).sum

lemma updateAssoc_eq_of_not_mem {ps : List (Label × Posterior)} {l : Label}
    (p : Posterior) (h : l ∉ keysOf ps) : updateAssoc ps l p = ps := by
  induction ps with
  | nil => rfl
  | cons x rest ih =>
    obtain ⟨k, w⟩ := x
    rw [keysOf_cons, List.mem_cons] at h
    push_neg at h
    rw [updateAssoc_cons, if_neg (fun hc => h.1 hc.symm), ih h.2]

lemma sumN_updateAssoc {ps : List (Label × Posterior)} {l : Label}
    {p₀ p : Posterior} (hnd : (keysOf ps).Nodup) (h : ps.lookup l = some p₀) :
    sumN (updateAssoc ps l p) + p₀.N = sumN ps + p.N := by
  induction ps with
  | nil => simp [List.lookup] at h
  | cons x rest ih =>
    obtain ⟨k, w⟩ := x
    rw [keysOf_cons, List.nodup_cons] at hnd
    by_cases hk : l = k
    · subst hk
      rw [lookup_cons_self] at h
      injection h with h
      subst h
      rw [updateAssoc_cons, if_pos rfl]
      have hnm : l ∉ keysOf rest := hnd.1
      rw [updateAssoc_eq_of_not_mem p hnm]
      show p.N + sumN rest + w.N = w.N + sumN rest + p.N
      omega
    · rw [lookup_cons_ne hk] at h
      rw [updateAssoc_cons, if_neg (fun hc => hk hc.symm)]
      have := ih hnd.2 h
      show w.N + sumN (updateAssoc rest l p) + p₀.N = w.N + sumN rest + p.N
      omega

lemma sumN_initPosteriors (arms : List (Label × PriceArm)) :
    sumN (initPosteriors arms) = 0 := by
  induction arms with
  | nil => rfl
  | cons x rest ih =>
    show (0 : ℕ) + sumN (initPosteriors rest) = 0
    rw [ih]

/-- The event counters over all arms sum to the number of processed events. -/
lemma runEvents_sumN {g : DrawFamily} {arms : List (Label × PriceArm)}
    {cid : String} {mr tau : ℚ} (hnd : (keysOf arms).Nodup) :
    ∀ {t : ℕ} {st : SimState}, runEvents g arms cid mr tau t = .ok st →
      sumN st.posteriors = t := by
  intro t
  induction t with
  | zero =>
    intro st h
    injection h with h
    rw [← h]
    exact sumN_initPosteriors arms
  | succ t ih =>
    intro st' h
    obtain ⟨st, hst, hstep⟩ := runEvents_succ_ok_elim h
    obtain ⟨armKey, k0, armDef, p0, hsel, ha, hp0, hposts, hev, hk⟩ :=
      simStep_ok_elim hstep
    have hndp : (keysOf st.posteriors).Nodup := by
      rw [runEvents_keys hst]
      exact hnd
    have hsum := sumN_updateAssoc (p := ⟨p0.alpha + (simulateOutcome g armDef k0).1.1,
      p0.beta + 1, p0.a + (simulateOutcome g armDef k0).1.2,
      p0.b + (1 - (simulateOutcome g armDef k0).1.2), p0.N + 1⟩) hndp hp0
    have hbase := ih hst
    rw [hposts]
    dsimp only at hsum
    omega

end InvariantLemmas

section AnalysisLemmas

lemma postRowsE_ok {arms : List (Label × PriceArm)} :
    ∀ {posts : List (Label × Posterior)},
      (∀ l ∈ keysOf posts, l ∈ keysOf arms) →
      ∃ rows, postRowsE arms posts = .ok rows := by
  intro posts
  induction posts with
  | nil => exact fun _ => ⟨[], rfl⟩
  | cons q rest ih =>
    intro h
    obtain ⟨l, p⟩ := q
    have hl : l ∈ keysOf arms := h l (List.mem_cons_self _ _)
    obtain ⟨armDef, ha⟩ := lookup_eq_some_of_mem_keys hl
    obtain ⟨rows, hrows⟩ := ih (fun l' hl' => h l' (List.mem_cons_of_mem _ hl'))
    unfold postRowsE
    rw [lookupE_ok_iff.mpr ha]
    dsimp only
    rw [hrows]
    dsimp only
    exact ⟨_, rfl⟩

lemma postRowsE_labels {arms : List (Label × PriceArm)} :
    ∀ {posts : List (Label × Posterior)} {rows : List PostRow},
      postRowsE arms posts = .ok rows →
      rows.map PostRow.price_arm = keysOf posts := by
  intro posts
  induction posts with
  | nil =>
    intro rows h
    injection h with h
    rw [← h]
    rfl
  | cons q rest ih =>
    intro rows h
    obtain ⟨l, p⟩ := q
    unfold postRowsE at h
    cases ha : lookupE arms l with
    | error e => rw [ha] at h; exact absurd h (by simp)
    | ok armDef =>
      rw [ha] at h
      dsimp only at h
      cases hr : postRowsE arms rest with
      | error e => rw [hr] at h; exact absurd h (by simp)
      | ok rows' =>
        rw [hr] at h
        dsimp only at h
        injection h with h
        rw [← h, List.map_cons, ih hr]
        rfl

lemma postRowsE_mem_elim {arms : List (Label × PriceArm)} :
    ∀ {posts : List (Label × Posterior)} {rows : List PostRow},
      postRowsE arms posts = .ok rows →
      ∀ row ∈ rows, ∃ p armDef, (row.price_arm, p) ∈ posts ∧
        arms.lookup row.price_arm = some armDef ∧
        row.price_usd = armDef.price ∧
        row.posterior_mean_revenue = p.alpha / p.beta ∧
        row.posterior_mean_churn = p.a / (p.a + p.b) ∧
        row.n_events = p.N := by
  intro posts
  induction posts with
  | nil =>
    intro rows h row hrow
    injection h with h
    rw [← h] at hrow
    exact absurd hrow (List.not_mem_nil _)
  | cons q rest ih =>
    intro rows h row hrow
    obtain ⟨l, p⟩ := q
    unfold postRowsE at h
    cases ha : lookupE arms l with
    | error e => rw [ha] at h; exact absurd h (by simp)
    | ok armDef =>
      rw [ha] at h
      dsimp only at h
      cases hr : postRowsE arms rest with
      | error e => rw [hr] at h; exact absurd h (by simp)
      | ok rows' =>
        rw [hr] at h
        dsimp only at h
        injection h with h
        rw [← h] at hrow
        rcases List.mem_cons.mp hrow with hq | hq
        · subst hq
          exact ⟨p, armDef, List.mem_cons_self _ _, lookupE_ok_iff.mp ha,
            rfl, rfl, rfl, rfl⟩
        · obtain ⟨p', armDef', hmem, ha', h1, h2, h3, h4⟩ := ih hr row hq
          exact ⟨p', armDef', List.mem_cons_of_mem _ hmem, ha', h1, h2, h3, h4⟩

lemma postRowsE_mem_intro {arms : List (Label × PriceArm)} :
    ∀ {posts : List (Label × Posterior)} {rows : List PostRow},
      postRowsE arms posts = .ok rows →
      ∀ lp ∈ posts, ∃ row ∈ rows, row.price_arm = lp.1 ∧
        row.posterior_mean_revenue = lp.2.alpha / lp.2.beta ∧
        row.n_events = lp.2.N := by
  intro posts
  induction posts with
  | nil =>
    intro rows _ lp hlp
    exact absurd hlp (List.not_mem_nil _)
  | cons q rest ih =>
    intro rows h lp hlp
    obtain ⟨l, p⟩ := q
    unfold postRowsE at h
    cases ha : lookupE arms l with
    | error e => rw [ha] at h; exact absurd h (by simp)
    | ok armDef =>
      rw [ha] at h
      dsimp only at h
      cases hr : postRowsE arms rest with
      | error e => rw [hr] at h; exact absurd h (by simp)
      | ok rows' =>
        rw [hr] at h
        dsimp only at h
        injection h with h
        rcases List.mem_cons.mp hlp with hq | hq
        · subst hq
          exact ⟨_, by rw [← h]; exact List.mem_cons_self _ _, rfl, rfl, rfl⟩
        · obtain ⟨row, hrow, h1, h2, h3⟩ := ih hr lp hq
          exact ⟨row, by rw [← h]; exact List.mem_cons_of_mem _ hrow, h1, h2, h3⟩

lemma probRowsE_ok {arms : List (Label × PriceArm)}
    {samples : List (Label × List ℚ)} {n : ℕ} :
    ∀ (xs : List (Label × PriceArm)) (i : ℕ),
      (∀ q ∈ xs, q.1 ∈ keysOf arms) →
      ∃ rows, probRowsE arms samples n xs i = .ok rows := by
  intro xs
  induction xs with
  | nil => exact fun _ _ => ⟨[], rfl⟩
  | cons q rest ih =>
    intro i h
    obtain ⟨l, d⟩ := q
    have hl : l ∈ keysOf arms := h (l, d) (List.mem_cons_self _ _)
    obtain ⟨armDef, ha⟩ := lookup_eq_some_of_mem_keys hl
    obtain ⟨rows, hrows⟩ := ih (i + 1) (fun q' hq' => h q' (List.mem_cons_of_mem _ hq'))
    unfold probRowsE
    rw [lookupE_ok_iff.mpr ha]
    dsimp only
    rw [hrows]
    dsimp only
    exact ⟨_, rfl⟩

lemma probRowsE_labels {arms : List (Label × PriceArm)}
    {samples : List (Label × List ℚ)} {n : ℕ} :
    ∀ {xs : List (Label × PriceArm)} {i : ℕ} {rows : List ProbRow},
      probRowsE arms samples n xs i = .ok rows →
      rows.map ProbRow.price_arm = keysOf xs := by
  intro xs
  induction xs with
  | nil =>
    intro i rows h
    injection h with h
    rw [← h]
    rfl
  | cons q rest ih =>
    intro i rows h
    obtain ⟨l, d⟩ := q
    unfold probRowsE at h
    cases ha : lookupE arms l with
    | error e => rw [ha] at h; exact absurd h (by simp)
    | ok armDef =>
      rw [ha] at h
      dsimp only at h
      cases hr : probRowsE arms samples n rest (i + 1) with
      | error e => rw [hr] at h; exact absurd h (by simp)
      | ok rows' =>
        rw [hr] at h
        dsimp only at h
        injection h with h
        rw [← h, List.map_cons, ih hr]
        rfl

lemma safeRowsGoE_ok {g : DrawFamily} {arms : List (Label × PriceArm)}
    {cap tau : ℚ} :
    ∀ (posts : List (Label × Posterior)) (k : ℕ),
      (∀ q ∈ posts, q.1 ∈ keysOf arms) →
      ∃ res, safeRowsGoE g arms cap tau posts k = .ok res := by
  intro posts
  induction posts with
  | nil => exact fun k _ => ⟨([], k), rfl⟩
  | cons q rest ih =>
    intro k h
    obtain ⟨l, p⟩ := q
    have hl : l ∈ keysOf arms := h (l, p) (List.mem_cons_self _ _)
    obtain ⟨armDef, ha⟩ := lookup_eq_some_of_mem_keys hl
    obtain ⟨res, hres⟩ := ih (betaSamples g p.a p.b 5000 k).2
      (fun q' hq' => h q' (List.mem_cons_of_mem _ hq'))
    unfold safeRowsGoE
    rw [lookupE_ok_iff.mpr ha]
    dsimp only
    rw [hres]
    dsimp only
    exact ⟨_, rfl⟩

lemma safeRowsGoE_labels {g : DrawFamily} {arms : List (Label × PriceArm)}
    {cap tau : ℚ} :
    ∀ {posts : List (Label × Posterior)} {k : ℕ} {res : List SafeRow × ℕ},
      safeRowsGoE g arms cap tau posts k = .ok res →
      res.1.map SafeRow.price_arm = keysOf posts := by
  intro posts
  induction posts with
  | nil =>
    intro k res h
    injection h with h
    rw [← h]
    rfl
  | cons q rest ih =>
    intro k res h
    obtain ⟨l, p⟩ := q
    unfold safeRowsGoE at h
    cases ha : lookupE arms l with
    | error e => rw [ha] at h; exact absurd h (by simp)
    | ok armDef =>
      rw [ha] at h
      dsimp only at h
      cases hr : safeRowsGoE g arms cap tau rest (betaSamples g p.a p.b 5000 k).2 with
      | error e => rw [hr] at h; exact absurd h (by simp)
      | ok res' =>
        rw [hr] at h
        dsimp only at h
        injection h with h
        rw [← h, List.map_cons, ih hr]
        rfl

lemma safeRowsGoE_mem_elim {g : DrawFamily} {arms : List (Label × PriceArm)}
    {cap tau : ℚ} :
    ∀ {posts : List (Label × Posterior)} {k : ℕ} {res : List SafeRow × ℕ},
      safeRowsGoE g arms cap tau posts k = .ok res →
      ∀ row ∈ res.1, row.is_safe =
        decide (row.prob_churn_violates_guardrail < tau) := by
  intro posts
  induction posts with
  | nil =>
    intro k res h row hrow
    injection h with h
    rw [← h] at hrow
    exact absurd hrow (List.not_mem_nil _)
  | cons q rest ih =>
    intro k res h row hrow
    obtain ⟨l, p⟩ := q
    unfold safeRowsGoE at h
    cases ha : lookupE arms l with
    | error e => rw [ha] at h; exact absurd h (by simp)
    | ok armDef =>
      rw [ha] at h
      dsimp only at h
      cases hr : safeRowsGoE g arms cap tau rest (betaSamples g p.a p.b 5000 k).2 with
      | error e => rw [hr] at h; exact absurd h (by simp)
      | ok res' =>
        rw [hr] at h
        dsimp only at h
        injection h with h
        rw [← h] at hrow
        rcases List.mem_cons.mp hrow with hq | hq
        · subst hq
          rfl
        · exact ih hr row hq

end AnalysisLemmas

section AnalyzeLemmas

lemma sortByKey_perm {α : Type} (key : α → ℚ) (rows : List α) :
    (sortByKey key rows).Perm rows :=
  List.mergeSort_perm rows _

lemma firstWhereE_ok {α : Type} {rows : List α} {p : α → Bool}
    (h : ∃ x ∈ rows, p x = true) :
    ∃ r, firstWhereE rows p = .ok r ∧ r ∈ rows ∧ p r = true := by
  unfold firstWhereE
  cases hf : rows.find? p with
  | none =>
    obtain ⟨x, hx, hpx⟩ := h
    rw [List.find?_eq_none] at hf
    exact absurd hpx (hf x hx)
  | some r =>
    exact ⟨r, rfl, List.mem_of_find?_eq_some hf, List.find?_some hf⟩

lemma firstWhereE_ok_elim {α : Type} {rows : List α} {p : α → Bool} {r : α}
    (h : firstWhereE rows p = .ok r) : r ∈ rows ∧ p r = true := by
  unfold firstWhereE at h
  cases hf : rows.find? p with
  | none => rw [hf] at h; exact absurd h (by simp)
  | some x =>
    rw [hf] at h
    injection h with h
    subst h
    exact ⟨List.mem_of_find?_eq_some hf, List.find?_some hf⟩

lemma bestRowOf_ok {sp : List PostRow} {sr : List SafeRow}
    (hA : ∃ row ∈ sp, row.price_arm = "A") :
    ∃ br, bestRowOf sp sr = .ok br := by
  unfold bestRowOf
  dsimp only
  by_cases he : (safeCandidatesOf sp sr).isEmpty
  · rw [if_pos he]
    obtain ⟨row, hrow, hlab⟩ := hA
    obtain ⟨r, hr, _, _⟩ := firstWhereE_ok (p := fun q => q.price_arm = "A")
      ⟨row, hrow, by dsimp only; rw [hlab]; decide⟩
    exact ⟨r, hr⟩
  · rw [if_neg he]
    cases hms : (safeCandidatesOf sp sr).mergeSort
        (fun r s => decide (s.posterior_mean_revenue ≤ r.posterior_mean_revenue)) with
    | nil =>
      exfalso
      have hperm := List.mergeSort_perm (safeCandidatesOf sp sr)
        (fun r s => decide (s.posterior_mean_revenue ≤ r.posterior_mean_revenue))
      rw [hms] at hperm
      have : safeCandidatesOf sp sr = [] := (List.Perm.nil_eq hperm).symm
      rw [this] at he
      exact he rfl
    | cons r rest => exact ⟨r, rfl⟩

lemma bestRowOf_mem {sp : List PostRow} {sr : List SafeRow} {br : PostRow}
    (h : bestRowOf sp sr = .ok br) : br ∈ sp := by
  unfold bestRowOf at h
  dsimp only at h
  by_cases he : (safeCandidatesOf sp sr).isEmpty
  · rw [if_pos he] at h
    exact (firstWhereE_ok_elim h).1
  · rw [if_neg he] at h
    cases hms : (safeCandidatesOf sp sr).mergeSort
        (fun r s => decide (s.posterior_mean_revenue ≤ r.posterior_mean_revenue)) with
    | nil => rw [hms] at h; exact absurd h (by simp)
    | cons q rest =>
      rw [hms] at h
      injection h with h
      have hmem : br ∈ (safeCandidatesOf sp sr).mergeSort
          (fun r s => decide (s.posterior_mean_revenue ≤ r.posterior_mean_revenue)) := by
        rw [hms, ← h]
        exact List.mem_cons_self _ _
      have hsc : br ∈ safeCandidatesOf sp sr :=
        (List.mergeSort_perm _ _).mem_iff.mp hmem
      exact (List.mem_filter.mp hsc).1

/-- Elimination form of the post-run analysis: a successful `analyze`
decomposes into its intermediate tables and the result's scalar fields. -/
lemma analyze_ok_elim {g : DrawFamily} {arms : List (Label × PriceArm)}
    {cn ci : String} {mr tau : ℚ} {st : SimState} {r : ExperimentResult}
    (h : analyze g arms cn ci mr tau st = .ok r) :
    ∃ postRowsRaw probRowsRaw baseParams safeRes best_row base_row row_prob
      baseArmDef,
      postRowsE arms st.posteriors = .ok postRowsRaw ∧
      probRowsE arms (mcGammaGo g 10000 st.posteriors st.k).1 10000 arms 0 =
        .ok probRowsRaw ∧
      st.posteriors.lookup "A" = some baseParams ∧
      safeRowsGoE g arms
        (baseParams.a / (baseParams.a + baseParams.b) * (1 + mr)) tau
        st.posteriors (mcGammaGo g 10000 st.posteriors st.k).2 = .ok safeRes ∧
      bestRowOf (sortByKey PostRow.price_usd postRowsRaw) safeRes.1 =
        .ok best_row ∧
      firstWhereE (sortByKey PostRow.price_usd postRowsRaw)
        (fun q => q.price_arm = "A") = .ok base_row ∧
      firstWhereE (sortByKey ProbRow.price_usd probRowsRaw)
        (fun q => q.price_arm = best_row.price_arm) = .ok row_prob ∧
      arms.lookup "A" = some baseArmDef ∧
      r.summary_post = sortByKey PostRow.price_usd postRowsRaw ∧
      r.prob_df = sortByKey ProbRow.price_usd probRowsRaw ∧
      r.safe_df = sortByKey SafeRow.price_usd safeRes.1 ∧
      r.best_price = best_row.price_usd ∧
      r.uplift_pct = (best_row.posterior_mean_revenue -
        base_row.posterior_mean_revenue) / base_row.posterior_mean_revenue * 100 ∧
      r.prob_ge_3 = row_prob.prob_ge3_next * 100 ∧
      r.events_df = st.events := by
  have h0 : ∃ sobs, summaryObsE st.events = .ok sobs := by
    unfold analyze at h
    cases hx : summaryObsE st.events with
    | error e => rw [hx] at h; exact absurd h (by simp)
    | ok sobs => exact ⟨sobs, rfl⟩
  obtain ⟨sobs, hsobs⟩ := h0
  unfold analyze at h
  rw [hsobs] at h
  dsimp only at h
  cases h1 : postRowsE arms st.posteriors with
  | error e => rw [h1] at h; exact absurd h (by simp)
  | ok postRowsRaw =>
    rw [h1] at h
    dsimp only at h
    cases h2 : probRowsE arms (mcGammaGo g 10000 st.posteriors st.k).1 10000 arms 0 with
    | error e => rw [h2] at h; exact absurd h (by simp)
    | ok probRowsRaw =>
      rw [h2] at h
      dsimp only at h
      cases h3 : lookupE st.posteriors "A" with
      | error e => rw [h3] at h; exact absurd h (by simp)
      | ok baseParams =>
        rw [h3] at h
        dsimp only at h
        cases h4 : safeRowsGoE g arms
            (baseParams.a / (baseParams.a + baseParams.b) * (1 + mr)) tau
            st.posteriors (mcGammaGo g 10000 st.posteriors st.k).2 with
        | error e => rw [h4] at h; exact absurd h (by simp)
        | ok safeRes =>
          rw [h4] at h
          dsimp only at h
          cases h5 : bestRowOf (sortByKey PostRow.price_usd postRowsRaw) safeRes.1 with
          | error e => rw [h5] at h; exact absurd h (by simp)
          | ok best_row =>
            rw [h5] at h
            dsimp only at h
            cases h6 : firstWhereE (sortByKey PostRow.price_usd postRowsRaw)
                (fun q => q.price_arm = "A") with
            | error e => rw [h6] at h; exact absurd h (by simp)
            | ok base_row =>
              rw [h6] at h
              dsimp only at h
              cases h7 : firstWhereE (sortByKey ProbRow.price_usd probRowsRaw)
                  (fun q => q.price_arm = best_row.price_arm) with
              | error e => rw [h7] at h; exact absurd h (by simp)
              | ok row_prob =>
                rw [h7] at h
                dsimp only at h
                cases h8 : lookupE arms "A" with
                | error e => rw [h8] at h; exact absurd h (by simp)
                | ok baseArmDef =>
                  rw [h8] at h
                  dsimp only at h
                  injection h with h
                  subst h
                  refine ⟨postRowsRaw, probRowsRaw, baseParams, safeRes, best_row,
                    base_row, row_prob, baseArmDef, ?_, ?_, ?_, ?_, ?_, ?_, ?_, ?_,
                    rfl, rfl, rfl, rfl, rfl, rfl, rfl⟩
                  all_goals first
                    | rfl
                    | exact h1
                    | exact h2
                    | exact lookupE_ok_iff.mp h3
                    | exact h4
                    | exact h5
                    | exact h6
                    | exact h7
                    | exact lookupE_ok_iff.mp h8

/-- The analysis succeeds whenever the loop state's keys are the arm labels and
the baseline label is present. -/
lemma analyze_ok {g : DrawFamily} {arms : List (Label × PriceArm)}
    {cn ci : String} {mr tau : ℚ} {st : SimState}
    (hkeys : keysOf st.posteriors = keysOf arms) (hA : "A" ∈ keysOf arms)
    (hev : st.events ≠ []) :
    ∃ r, analyze g arms cn ci mr tau st = .ok r := by
  have hobs : ∃ obsRows, summaryObsE st.events = .ok obsRows := by
    cases he : st.events with
    | nil => exact absurd he hev
    | cons e rest => exact ⟨_, rfl⟩
  obtain ⟨obsRows, hobsE⟩ := hobs
  have hsub : ∀ q ∈ st.posteriors, q.1 ∈ keysOf arms := by
    intro q hq
    rw [← hkeys]
    exact mem_keysOf_of_mem hq
  have hsub' : ∀ l ∈ keysOf st.posteriors, l ∈ keysOf arms := by
    intro l hl
    rw [← hkeys]
    exact hl
  obtain ⟨postRowsRaw, h1⟩ := postRowsE_ok hsub'
  obtain ⟨probRowsRaw, h2⟩ := probRowsE_ok arms 0 (fun q hq => mem_keysOf_of_mem hq)
  have hAp : "A" ∈ keysOf st.posteriors := by rw [hkeys]; exact hA
  obtain ⟨baseParams, h3⟩ := lookup_eq_some_of_mem_keys hAp
  obtain ⟨safeRes, h4⟩ := safeRowsGoE_ok st.posteriors
    (mcGammaGo g 10000 st.posteriors st.k).2 hsub
  have hArow : ∃ row ∈ sortByKey PostRow.price_usd postRowsRaw,
      row.price_arm = "A" := by
    have hlab := postRowsE_labels h1
    have : "A" ∈ postRowsRaw.map PostRow.price_arm := by rw [hlab]; exact hAp
    obtain ⟨row, hrow, hre⟩ := List.mem_map.mp this
    exact ⟨row, (sortByKey_perm _ _).mem_iff.mpr hrow, hre⟩
  obtain ⟨best_row, h5⟩ := bestRowOf_ok hArow
  obtain ⟨base_row, h6, _, _⟩ := firstWhereE_ok
    (p := fun q : PostRow => q.price_arm = "A")
    (by obtain ⟨row, hrow, hre⟩ := hArow
        exact ⟨row, hrow, by dsimp only; rw [hre]; exact decide_eq_true rfl⟩)
  have hbestlab : best_row.price_arm ∈ keysOf arms := by
    have hmem := bestRowOf_mem h5
    have hmem' : best_row ∈ postRowsRaw := (sortByKey_perm _ _).mem_iff.mp hmem
    have : best_row.price_arm ∈ postRowsRaw.map PostRow.price_arm :=
      List.mem_map_of_mem _ hmem'
    rw [postRowsE_labels h1] at this
    rw [← hkeys]
    exact this
  have hprow : ∃ row ∈ sortByKey ProbRow.price_usd probRowsRaw,
      row.price_arm = best_row.price_arm := by
    have hlab := probRowsE_labels h2
    have : best_row.price_arm ∈ probRowsRaw.map ProbRow.price_arm := by
      rw [hlab]; exact hbestlab
    obtain ⟨row, hrow, hre⟩ := List.mem_map.mp this
    exact ⟨row, (sortByKey_perm _ _).mem_iff.mpr hrow, hre⟩
  obtain ⟨row_prob, h7, _, _⟩ := firstWhereE_ok
    (p := fun q : ProbRow => q.price_arm = best_row.price_arm)
    (by obtain ⟨row, hrow, hre⟩ := hprow
        exact ⟨row, hrow, by dsimp only; rw [hre]; exact decide_eq_true rfl⟩)
  obtain ⟨baseArmDef, h8⟩ := lookup_eq_some_of_mem_keys hA
  unfold analyze
  rw [hobsE]
  dsimp only
  rw [h1]
  dsimp only
  rw [h2]
  dsimp only
  rw [lookupE_ok_iff.mpr h3]
  dsimp only
  rw [h4]
  dsimp only
  rw [h5]
  dsimp only
  rw [h6]
  dsimp only
  rw [h7]
  dsimp only
  rw [lookupE_ok_iff.mpr h8]
  dsimp only
  exact ⟨_, rfl⟩

/-- Function `run_creator_sim_core` succeeds for every configuration whose arm dict
contains the baseline label `"A"` — there is no configuration validation. -/
lemma runCreatorSimCore_ok {rng : Rng} {cn ci : String}
    {arms : List (Label × PriceArm)} {seed n : ℕ} {mr tau : ℚ}
    (hA : "A" ∈ keysOf arms) (hn : 1 ≤ n) :
    ∃ r, runCreatorSimCore rng cn ci arms seed n mr tau = .ok r := by
  obtain ⟨st, hst⟩ := @runEvents_ok (rng seed) arms ci mr tau hA n
  have hev : st.events ≠ [] := by
    intro hc
    have hlen := runEvents_events_length hst
    rw [hc] at hlen
    simp at hlen
    omega
  obtain ⟨r, hr⟩ := @analyze_ok (rng seed) arms cn ci mr tau st
    (runEvents_keys hst) hA hev
  unfold runCreatorSimCore
  dsimp only
  rw [hst]
  dsimp only
  exact ⟨r, hr⟩

lemma runCreatorSimCore_ok_elim {rng : Rng} {cn ci : String}
    {arms : List (Label × PriceArm)} {seed n : ℕ} {mr tau : ℚ}
    {r : ExperimentResult}
    (h : runCreatorSimCore rng cn ci arms seed n mr tau = .ok r) :
    ∃ st, runEvents (rng seed) arms ci mr tau n = .ok st ∧
      analyze (rng seed) arms cn ci mr tau st = .ok r := by
  unfold runCreatorSimCore at h
  dsimp only at h
  cases hst : runEvents (rng seed) arms ci mr tau n with
  | error e => rw [hst] at h; exact absurd h (by simp)
  | ok st =>
    rw [hst] at h
    exact ⟨st, rfl, h⟩

end AnalyzeLemmas

section SpecCompare

/-- Once the baseline has strictly more than 2 combined pseudo-observations,
the code's arm selection coincides with the spec's step-2 rule (the two differ
only in which branch computes the cap when `a + b` is at or below 2). -/
lemma choosePriceArm_eq_specStep2 {g : DrawFamily} {arms : List (Label × PriceArm)}
    {mr tau : ℚ} {nChurn : ℕ} {posts : List (Label × Posterior)} {k : ℕ}
    {base : Posterior} (hbase : posts.lookup "A" = some base)
    (hgt : base.a + base.b > 2) :
    choosePriceArm g arms "A" mr tau nChurn posts k =
      specStep2Select g arms "A" mr tau nChurn posts k := by
  unfold choosePriceArm specStep2Select
  rw [lookupE_ok_iff.mpr hbase]
  dsimp only
  unfold baselineChurnEstE specBaselineChurnEstE
  rw [if_pos hgt, if_neg (by linarith : ¬(base.a + base.b < 2))]

end SpecCompare

section RecommendationLemmas

lemma find?_eq_of_nodup_key {α : Type} {f : α → Label} :
    ∀ {xs : List α} {x : α} {c : Label},
      (xs.map f).Nodup → x ∈ xs → f x = c →
      xs.find? (fun y => f y = c) = some x := by
  intro xs
  induction xs with
  | nil => intro x c _ hx; exact absurd hx (List.not_mem_nil _)
  | cons y rest ih =>
    intro x c hnd hx hfx
    rw [List.map_cons, List.nodup_cons] at hnd
    by_cases hyc : f y = c
    · have hxy : x = y := by
        rcases List.mem_cons.mp hx with h | h
        · exact h
        · exfalso
          have : f x ∈ rest.map f := List.mem_map_of_mem f h
          rw [hfx, ← hyc] at this
          exact hnd.1 this
      rw [List.find?_cons]
      have hb : decide (f y = c) = true := decide_eq_true hyc
      rw [hb, hxy]
    · rw [List.find?_cons]
      have hb : decide (f y = c) = false := decide_eq_false hyc
      rw [hb]
      have hxr : x ∈ rest := by
        rcases List.mem_cons.mp hx with h | h
        · exact absurd (h ▸ hfx) hyc
        · exact h
      exact ih hnd.2 hxr hfx

lemma lookup_eq_of_mem_nodup {α : Type} :
    ∀ {xs : List (Label × α)} {l : Label} {p : α},
      (keysOf xs).Nodup → (l, p) ∈ xs → xs.lookup l = some p := by
  intro xs
  induction xs with
  | nil => intro l p _ h; exact absurd h (List.not_mem_nil _)
  | cons y rest ih =>
    intro l p hnd h
    obtain ⟨k, w⟩ := y
    rw [keysOf_cons, List.nodup_cons] at hnd
    rcases List.mem_cons.mp h with hh | hh
    · injection hh with h1 h2
      subst h1
      subst h2
      exact lookup_cons_self _ _ _
    · by_cases hk : l = k
      · exfalso
        subst hk
        have : l ∈ keysOf rest := mem_keysOf_of_mem hh
        exact hnd.1 this
      · rw [lookup_cons_ne hk]
        exact ih hnd.2 hh

/-- Full characterization of the recommendation row: among safe candidates it
maximizes posterior mean revenue; with no safe candidate it is the first
baseline row of `summary_post`. -/
lemma bestRowOf_spec {sp : List PostRow} {sr : List SafeRow} {br : PostRow}
    (h : bestRowOf sp sr = .ok br) :
    (¬(safeCandidatesOf sp sr).isEmpty →
      br ∈ safeCandidatesOf sp sr ∧
      ∀ q ∈ safeCandidatesOf sp sr,
        q.posterior_mean_revenue ≤ br.posterior_mean_revenue) ∧
    ((safeCandidatesOf sp sr).isEmpty → br ∈ sp ∧ br.price_arm = "A") := by
  unfold bestRowOf at h
  dsimp only at h
  by_cases he : (safeCandidatesOf sp sr).isEmpty
  · rw [if_pos he] at h
    obtain ⟨hmem, hpred⟩ := firstWhereE_ok_elim h
    refine ⟨fun hc => absurd he hc, fun _ => ⟨hmem, ?_⟩⟩
    exact of_decide_eq_true hpred
  · rw [if_neg he] at h
    refine ⟨fun _ => ?_, fun hc => absurd hc he⟩
    cases hms : (safeCandidatesOf sp sr).mergeSort
        (fun r s => decide (s.posterior_mean_revenue ≤ r.posterior_mean_revenue)) with
    | nil =>
      exfalso
      have hperm := List.mergeSort_perm (safeCandidatesOf sp sr)
        (fun r s => decide (s.posterior_mean_revenue ≤ r.posterior_mean_revenue))
      rw [hms] at hperm
      have hnil : safeCandidatesOf sp sr = [] := (List.Perm.nil_eq hperm).symm
      rw [hnil] at he
      exact he rfl
    | cons top rest =>
      rw [hms] at h
      injection h with h
      have htrans : ∀ a b c : PostRow,
          (fun r s : PostRow =>
            decide (s.posterior_mean_revenue ≤ r.posterior_mean_revenue)) a b = true →
          (fun r s : PostRow =>
            decide (s.posterior_mean_revenue ≤ r.posterior_mean_revenue)) b c = true →
          (fun r s : PostRow =>
            decide (s.posterior_mean_revenue ≤ r.posterior_mean_revenue)) a c = true := by
        intro a b c hab hbc
        dsimp only at hab hbc ⊢
        exact decide_eq_true (le_trans (of_decide_eq_true hbc) (of_decide_eq_true hab))
      have htotal : ∀ a b : PostRow,
          ((fun r s : PostRow =>
            decide (s.posterior_mean_revenue ≤ r.posterior_mean_revenue)) a b ||
           (fun r s : PostRow =>
            decide (s.posterior_mean_revenue ≤ r.posterior_mean_revenue)) b a) = true := by
        intro a b
        dsimp only
        rcases le_total a.posterior_mean_revenue b.posterior_mean_revenue with hle | hle
        · rw [decide_eq_true hle]
          simp
        · rw [decide_eq_true hle]
          simp
      have hsorted := List.sorted_mergeSort htrans htotal (safeCandidatesOf sp sr)
      rw [hms] at hsorted
      have hmax := List.pairwise_cons.mp hsorted
      constructor
      · have : br ∈ (safeCandidatesOf sp sr).mergeSort
            (fun r s => decide (s.posterior_mean_revenue ≤ r.posterior_mean_revenue)) := by
          rw [hms, ← h]
          exact List.mem_cons_self _ _
        exact (List.mergeSort_perm _ _).mem_iff.mp this
      · intro q hq
        have hq' : q ∈ top :: rest := by
          rw [← hms]
          exact (List.mergeSort_perm _ _).mem_iff.mpr hq
        rcases List.mem_cons.mp hq' with hh | hh
        · rw [hh, ← h]
        · have := hmax.1 q hh
          rw [← h]
          exact of_decide_eq_true this

end RecommendationLemmas

section ConcreteInstances

/-- A concrete draw family for witnesses; its lognormal draws are the constant
1, matching the nonnegativity of the real sampler. -/
def constFam : DrawFamily :=
  ⟨fun _ _ _ => 1, fun _ => 1 / 2, fun _ _ _ => 1 / 2, fun _ _ _ => 1,
   fun _ _ _ => 1⟩

/-- A concrete generator: every seed yields `constFam`. -/
def rng0 : Rng := fun _ => constFam

def armA0 : PriceArm := ⟨10, 12, 1 / 5⟩

def armB0 : PriceArm := ⟨23 / 2, 13, 21 / 100⟩

/-- A two-arm configuration (the smallest valid one per the spec). -/
def armsAB : List (Label × PriceArm) := [("A", armA0), ("B", armB0)]

/-- A configuration violating every validity rule of the spec: a single arm
(fewer than 2), non-positive price, non-positive mean revenue, churn outside
`[0, 1]`. -/
def armsInvalid : List (Label × PriceArm) := [("A", ⟨-5, 0, 3 / 2⟩)]

/-- A one-arm configuration with sane parameters (for adaptive-phase
witnesses). -/
def armsOnlyA : List (Label × PriceArm) := [("A", armA0)]

lemma constFam_lognormal_nonneg : ∀ (m s2 : ℚ) (k : ℕ),
    0 ≤ constFam.lognormalMean m s2 k := by
  intro m s2 k
  show (0 : ℚ) ≤ 1
  norm_num

end ConcreteInstances

/-- C1 counterexample: the claim says `run_creator_sim_core` fails with an
`InvalidConfiguration` error whenever the configuration is invalid; but on a
configuration violating every validity rule at once (a single arm, `price = -5
≤ 0`, `true_mean_revenue = 0 ≤ 0`, `true_churn = 3/2 ∉ [0,1]`, and
`event_count = 5 < 10 × 1`) the function runs to completion and returns a
result — no error of any kind is raised. -/
theorem claim_C1_counterexample :
    armsInvalid.length < 2 ∧
    (runCreatorSimCore rng0 "c" "c1" armsInvalid 999 5 (1 / 10) (9 / 10)).isOk
      = true := by
  constructor
  · decide
  · obtain ⟨r, hr⟩ :=
      @runCreatorSimCore_ok rng0 "c" "c1" armsInvalid 999 5 (1 / 10) (9 / 10)
        (by decide) (by norm_num)
    rw [hr]
    rfl

/-- C1 (amended): `run_creator_sim_core` performs no configuration validation
and defines no `InvalidConfiguration` error.  Every configuration whose arm
dict contains the baseline label `"A"` and that requests at least one event —
including configurations with fewer than 2 arms, `event_count` below
`10 × |arms|`, non-positive price / revenue / churn parameters, or churn
outside `[0, 1]` — runs to completion and returns a result: invalid
configurations are silently accepted.  The only failure modes are incidental:
a missing baseline key (`KeyError: A`), and, at `event_count = 0`, the pandas
`KeyError: price_arm` raised when grouping the empty events frame — never a
distinct `InvalidConfiguration`. -/
theorem claim_C1 :
    (∀ (rng : Rng) (cn ci : String) (arms : List (Label × PriceArm))
       (seed n : ℕ) (mr tau : ℚ), "A" ∈ keysOf arms → 1 ≤ n →
       (runCreatorSimCore rng cn ci arms seed n mr tau).isOk = true) ∧
    (∀ (rng : Rng) (cn ci : String) (arms : List (Label × PriceArm))
       (seed : ℕ) (mr tau : ℚ),
       runCreatorSimCore rng cn ci arms seed 0 mr tau =
         .error (.keyNotFound "price_arm")) := by
  constructor
  · intro rng cn ci arms seed n mr tau hA hn
    obtain ⟨r, hr⟩ := runCreatorSimCore_ok hA hn
    rw [hr]
    rfl
  · intro rng cn ci arms seed mr tau
    rfl

theorem claim_C1_witness :
    (("A" : Label) ∈ keysOf armsInvalid ∧ 1 ≤ 5 ∧
     (runCreatorSimCore rng0 "c" "c1" armsInvalid 999 5 (1 / 10) (9 / 10)).isOk
       = true) ∧
    runCreatorSimCore rng0 "c" "c1" armsInvalid 999 0 (1 / 10) (9 / 10) =
      .error (.keyNotFound "price_arm") :=
  ⟨⟨by decide, by norm_num,
    claim_C1.1 rng0 "c" "c1" armsInvalid 999 5 (1 / 10) (9 / 10) (by decide)
      (by norm_num)⟩,
   claim_C1.2 rng0 "c" "c1" armsInvalid 999 (1 / 10) (9 / 10)⟩

/-- C2: determinism — two invocations of `run_creator_sim_core` with the same
generator algorithm and identical `(creator strings, price_arms, seed,
event_count, max_relative_churn_increase, guardrail_confidence)` produce
identical `ExperimentResult` values in every field.  (The embedding represents
one platform's generator as one `Rng`; all randomness is a pure function of
the seed and draw position, so the results are equal on the nose.) -/
theorem claim_C2 (rng : Rng) (cn cn' ci ci' : String)
    (arms arms' : List (Label × PriceArm)) (seed seed' n n' : ℕ)
    (mr mr' tau tau' : ℚ)
    (h1 : arms = arms') (h2 : seed = seed') (h3 : n = n') (h4 : mr = mr')
    (h5 : tau = tau') (h6 : cn = cn') (h7 : ci = ci') :
    runCreatorSimCore rng cn ci arms seed n mr tau =
      runCreatorSimCore rng cn' ci' arms' seed' n' mr' tau' := by
  subst h1
  subst h2
  subst h3
  subst h4
  subst h5
  subst h6
  subst h7
  rfl

theorem claim_C2_witness :
    runCreatorSimCore rng0 "c" "c1" armsAB 999 20 (1 / 10) (9 / 10) =
      runCreatorSimCore rng0 "c" "c1" armsAB 999 20 (1 / 10) (9 / 10) :=
  claim_C2 rng0 "c" "c" "c1" "c1" armsAB armsAB 999 999 20 20 (1 / 10) (1 / 10)
    (9 / 10) (9 / 10) rfl rfl rfl rfl rfl rfl rfl

/-- C8: between any two successive events of a run, no arm's posterior
parameters `alpha, beta, a, b` ever decrease (the hypothesis on the generator
reflects that `np.random.lognormal` draws are nonnegative). -/
theorem claim_C8 (g : DrawFamily) (arms : List (Label × PriceArm))
    (cid : String) (mr tau : ℚ) (t : ℕ) (st st' : SimState)
    (hrev : ∀ m s2 k, 0 ≤ g.lognormalMean m s2 k)
    (hst : runEvents g arms cid mr tau t = .ok st)
    (hst' : runEvents g arms cid mr tau (t + 1) = .ok st') :
    ∀ l p p', st.posteriors.lookup l = some p →
      st'.posteriors.lookup l = some p' →
      p.alpha ≤ p'.alpha ∧ p.beta ≤ p'.beta ∧ p.a ≤ p'.a ∧ p.b ≤ p'.b := by
  intro l p p' hp hp'
  obtain ⟨stm, hstm, hstep⟩ := runEvents_succ_ok_elim hst'
  rw [hst] at hstm
  injection hstm with hstm
  subst hstm
  obtain ⟨h1, h2, h3, h4, _⟩ := simStep_mono hstep hrev hp hp'
  exact ⟨h1, h2, h3, h4⟩

theorem claim_C8_witness :
    ∃ st st', runEvents constFam armsAB "c" (1 / 10) (9 / 10) 0 = .ok st ∧
      runEvents constFam armsAB "c" (1 / 10) (9 / 10) 1 = .ok st' ∧
      ∀ l p p', st.posteriors.lookup l = some p →
        st'.posteriors.lookup l = some p' →
        p.alpha ≤ p'.alpha ∧ p.beta ≤ p'.beta ∧ p.a ≤ p'.a ∧ p.b ≤ p'.b := by
  obtain ⟨st, hst⟩ := @runEvents_ok constFam armsAB "c" (1 / 10) (9 / 10)
    (by decide) 0
  obtain ⟨st', hst'⟩ := @runEvents_ok constFam armsAB "c" (1 / 10) (9 / 10)
    (by decide) 1
  exact ⟨st, st', hst, hst',
    claim_C8 constFam armsAB "c" (1 / 10) (9 / 10) 0 st st'
      constFam_lognormal_nonneg hst hst'⟩

/-- C9: each event updates exactly one arm's posterior — the chosen arm's — by
exactly `alpha += revenue`, `beta += 1`, `a += churn`, `b += 1 - churn`,
`N += 1`; every other arm's posterior is unchanged, and the event list only
grows by the one appended record (previously appended records are never
mutated). -/
theorem claim_C9 (g : DrawFamily) (arms : List (Label × PriceArm))
    (cid : String) (mr tau : ℚ) (t : ℕ) (st st' : SimState)
    (hst : runEvents g arms cid mr tau t = .ok st)
    (hst' : runEvents g arms cid mr tau (t + 1) = .ok st') :
    ∃ armKey p rev churn,
      st.posteriors.lookup armKey = some p ∧
      st'.posteriors.lookup armKey =
        some ⟨p.alpha + rev, p.beta + 1, p.a + churn, p.b + (1 - churn),
          p.N + 1⟩ ∧
      (∀ l, l ≠ armKey → st'.posteriors.lookup l = st.posteriors.lookup l) ∧
      ∃ ev, st'.events = st.events ++ [ev] ∧ ev.price_arm = armKey ∧
        ev.net_revenue_30d = rev ∧ ev.churn_30d = churn ∧ ev.event_id = t + 1 := by
  obtain ⟨stm, hstm, hstep⟩ := runEvents_succ_ok_elim hst'
  rw [hst] at hstm
  injection hstm with hstm
  subst hstm
  obtain ⟨armKey, k0, armDef, p, hsel, ha, hp, hposts, hev, hk⟩ :=
    simStep_ok_elim hstep
  refine ⟨armKey, p, (simulateOutcome g armDef k0).1.1,
    (simulateOutcome g armDef k0).1.2, hp, ?_, ?_, ?_⟩
  · rw [hposts]
    exact lookup_updateAssoc_self hp _
  · intro l hl
    rw [hposts]
    exact lookup_updateAssoc_ne _ _ hl
  · exact ⟨_, hev, rfl, rfl, rfl, rfl⟩

theorem claim_C9_witness :
    ∃ st st', runEvents constFam armsAB "c" (1 / 10) (9 / 10) 0 = .ok st ∧
      runEvents constFam armsAB "c" (1 / 10) (9 / 10) 1 = .ok st' ∧
      ∃ armKey p rev churn,
        st.posteriors.lookup armKey = some p ∧
        st'.posteriors.lookup armKey =
          some ⟨p.alpha + rev, p.beta + 1, p.a + churn, p.b + (1 - churn),
            p.N + 1⟩ ∧
        (∀ l, l ≠ armKey → st'.posteriors.lookup l = st.posteriors.lookup l) ∧
        ∃ ev, st'.events = st.events ++ [ev] ∧ ev.price_arm = armKey ∧
          ev.net_revenue_30d = rev ∧ ev.churn_30d = churn ∧ ev.event_id = 0 + 1 := by
  obtain ⟨st, hst⟩ := @runEvents_ok constFam armsAB "c" (1 / 10) (9 / 10)
    (by decide) 0
  obtain ⟨st', hst'⟩ := @runEvents_ok constFam armsAB "c" (1 / 10) (9 / 10)
    (by decide) 1
  exact ⟨st, st', hst, hst',
    claim_C9 constFam armsAB "c" (1 / 10) (9 / 10) 0 st st' hst hst'⟩

/-- C10: at every point of a run, each arm's posterior satisfies
`beta = N + 1`, `a + b = N + 2` and `alpha ≥ 1`; the `N` counters over all
arms sum to the number of events processed so far; and consequently the
engine's early-exploration test `a + b ≤ 2` holds for an arm iff that arm has
received no events. -/
theorem claim_C10 (g : DrawFamily) (arms : List (Label × PriceArm))
    (cid : String) (mr tau : ℚ) (t : ℕ) (st : SimState)
    (hnd : (keysOf arms).Nodup)
    (hrev : ∀ m s2 k, 0 ≤ g.lognormalMean m s2 k)
    (hst : runEvents g arms cid mr tau t = .ok st) :
    (∀ l p, st.posteriors.lookup l = some p →
      p.beta = (p.N : ℚ) + 1 ∧ p.a + p.b = (p.N : ℚ) + 2 ∧ 1 ≤ p.alpha ∧
      (p.a + p.b ≤ 2 ↔ p.N = 0)) ∧
    sumN st.posteriors = t := by
  constructor
  · intro l p hp
    obtain ⟨hb, hab⟩ := runEvents_invariant hst hp
    exact ⟨hb, hab, runEvents_alpha_ge_one hrev hst hp, ab_le_two_iff hab⟩
  · exact runEvents_sumN hnd hst

theorem claim_C10_witness :
    ∃ st, runEvents constFam armsAB "c" (1 / 10) (9 / 10) 3 = .ok st ∧
      (∀ l p, st.posteriors.lookup l = some p →
        p.beta = (p.N : ℚ) + 1 ∧ p.a + p.b = (p.N : ℚ) + 2 ∧ 1 ≤ p.alpha ∧
        (p.a + p.b ≤ 2 ↔ p.N = 0)) ∧
      sumN st.posteriors = 3 := by
  obtain ⟨st, hst⟩ := @runEvents_ok constFam armsAB "c" (1 / 10) (9 / 10)
    (by decide) 3
  exact ⟨st, hst,
    claim_C10 constFam armsAB "c" (1 / 10) (9 / 10) 3 st (by decide)
      constFam_lognormal_nonneg hst⟩

lemma runEvents_prefix_ok {g : DrawFamily} {arms : List (Label × PriceArm)}
    {cid : String} {mr tau : ℚ} :
    ∀ {t t' : ℕ}, t' ≤ t → ∀ {st : SimState},
      runEvents g arms cid mr tau t = .ok st →
      ∃ st', runEvents g arms cid mr tau t' = .ok st' := by
  intro t
  induction t with
  | zero =>
    intro t' h st hst
    have h0 : t' = 0 := by omega
    subst h0
    exact ⟨st, hst⟩
  | succ t ih =>
    intro t' h st hst
    by_cases he : t' = t + 1
    · subst he
      exact ⟨st, hst⟩
    · obtain ⟨stm, hstm, _⟩ := runEvents_succ_ok_elim hst
      exact ih (by omega) hstm

/-- C3: for every event after the forced-exploration phase, the arm is
selected exactly by the spec's step-2 rule: the code's selection equals the
spec-modelled rule (`specStep2Select`) instantiated at 2000 ≥ 1000 churn
samples.  The two rules differ only in the cap branch taken when the baseline
has at most 2 combined pseudo-observations, and after forced exploration the
baseline always has `a + b = N + 2 ≥ 12 > 2`, so they coincide. -/
theorem claim_C3 (g : DrawFamily) (arms : List (Label × PriceArm))
    (cid : String) (mr tau : ℚ) (i : ℕ) (st : SimState)
    (hnd : (keysOf arms).Nodup) (hA : "A" ∈ keysOf arms)
    (hi : (keysOf arms).length * 10 < i)
    (hst : runEvents g arms cid mr tau (i - 1) = .ok st) :
    1000 ≤ 2000 ∧
    selectArm g arms mr tau st.posteriors st.k i =
      specStep2Select g arms "A" mr tau 2000 st.posteriors st.k := by
  refine ⟨by norm_num, ?_⟩
  have hseleq : selectArm g arms mr tau st.posteriors st.k i =
      choosePriceArm g arms "A" mr tau 2000 st.posteriors st.k := by
    unfold selectArm
    rw [if_neg (by omega)]
  rw [hseleq]
  have hkeys := runEvents_keys hst
  have hAp : "A" ∈ keysOf st.posteriors := by rw [hkeys]; exact hA
  obtain ⟨base, hbase⟩ := lookup_eq_some_of_mem_keys hAp
  obtain ⟨st0, hst0⟩ := runEvents_prefix_ok
    (show (keysOf arms).length * 10 ≤ i - 1 by omega) hst
  obtain ⟨p0, hp0, hN0⟩ := runEvents_N_at_forced_end hnd hst0 "A" hA
  have hmono := runEvents_N_mono
    (show (keysOf arms).length * 10 ≤ i - 1 by omega) hst0 hst hp0 hbase
  have hbN : 10 ≤ base.N := by omega
  obtain ⟨hb, hab⟩ := runEvents_invariant hst hbase
  have hgt : base.a + base.b > 2 := by
    rw [hab]
    have hc : (10 : ℚ) ≤ (base.N : ℚ) := by exact_mod_cast hbN
    linarith
  exact choosePriceArm_eq_specStep2 hbase hgt

theorem claim_C3_witness :
    ∃ st, runEvents constFam armsOnlyA "c" (1 / 10) (9 / 10) 10 = .ok st ∧
      (1000 ≤ 2000 ∧
       selectArm constFam armsOnlyA (1 / 10) (9 / 10) st.posteriors st.k 11 =
         specStep2Select constFam armsOnlyA "A" (1 / 10) (9 / 10) 2000
           st.posteriors st.k) := by
  obtain ⟨st, hst⟩ := @runEvents_ok constFam armsOnlyA "c" (1 / 10) (9 / 10)
    (by decide) 10
  exact ⟨st, hst,
    claim_C3 constFam armsOnlyA "c" (1 / 10) (9 / 10) 11 st (by decide)
      (by decide) (by decide) hst⟩

/-- C5: after the first `10 × |arms|` events every arm's event counter `N`
equals exactly 10; and the smallest valid configuration (2 arms,
`event_count = 20`) completes without error with both arms at `N = 10` in the
posterior summary, every one of its 20 events falling inside the forced
phase (the adaptive phase is never entered). -/
theorem claim_C5 :
    (∀ (g : DrawFamily) (arms : List (Label × PriceArm)) (cid : String)
       (mr tau : ℚ) (st : SimState), (keysOf arms).Nodup →
       runEvents g arms cid mr tau ((keysOf arms).length * 10) = .ok st →
       ∀ l ∈ keysOf arms, ∃ p, st.posteriors.lookup l = some p ∧ p.N = 10) ∧
    (∀ (rng : Rng) (cn ci : String) (a b : PriceArm) (lB : Label)
       (seed : ℕ) (mr tau : ℚ), lB ≠ "A" →
       ∃ r, runCreatorSimCore rng cn ci [("A", a), (lB, b)] seed 20 mr tau =
         .ok r ∧
         r.summary_post.length = 2 ∧
         (∀ row ∈ r.summary_post, row.n_events = 10) ∧
         (∀ i, 1 ≤ i → i ≤ 20 →
           i ≤ (keysOf [("A", a), (lB, b)]).length * 10)) := by
  constructor
  · intro g arms cid mr tau st hnd hst
    exact runEvents_N_at_forced_end hnd hst
  · intro rng cn ci a b lB seed mr tau hlB
    have hA : ("A" : Label) ∈ keysOf [("A", a), (lB, b)] :=
      List.mem_cons_self _ _
    have hnd : (keysOf [("A", a), (lB, b)]).Nodup := by
      show (["A", lB] : List Label).Nodup
      rw [List.nodup_cons]
      constructor
      · intro hc
        rcases List.mem_singleton.mp hc with h
        exact hlB h.symm
      · exact List.nodup_singleton _
    obtain ⟨r, hr⟩ := @runCreatorSimCore_ok rng cn ci [("A", a), (lB, b)] seed
      20 mr tau hA (by norm_num)
    obtain ⟨st, hst, han⟩ := runCreatorSimCore_ok_elim hr
    obtain ⟨postRowsRaw, probRowsRaw, baseParams, safeRes, best_row, base_row,
      row_prob, baseArmDef, h1, h2, h3, h4, h5, h6, h7, h8, hsp, hpd, hsd,
      hbp, hup, hpg, hev⟩ := analyze_ok_elim han
    have hkeys := runEvents_keys hst
    have hNall := runEvents_N_at_forced_end hnd hst
    refine ⟨r, hr, ?_, ?_, fun i h1' h2' => h2'⟩
    · rw [hsp, (sortByKey_perm _ _).length_eq]
      have hlab := postRowsE_labels h1
      have hlen : postRowsRaw.length = (keysOf st.posteriors).length := by
        rw [← hlab, List.length_map]
      rw [hlen, hkeys]
      rfl
    · intro row hrow
      rw [hsp] at hrow
      have hrow' : row ∈ postRowsRaw := (sortByKey_perm _ _).mem_iff.mp hrow
      obtain ⟨p, armDef, hmem, _, _, _, _, hN⟩ := postRowsE_mem_elim h1 row hrow'
      have hndp : (keysOf st.posteriors).Nodup := by rw [hkeys]; exact hnd
      have hlook : st.posteriors.lookup row.price_arm = some p :=
        lookup_eq_of_mem_nodup hndp hmem
      have hlabmem : row.price_arm ∈ keysOf [("A", a), (lB, b)] := by
        rw [← hkeys]
        exact mem_keys_of_lookup_eq_some hlook
      obtain ⟨p', hp', hN'⟩ := hNall row.price_arm hlabmem
      rw [hlook] at hp'
      injection hp' with hp'
      rw [hN, hp', hN']

theorem claim_C5_witness :
    (∃ st, runEvents constFam armsAB "c" (1 / 10) (9 / 10)
        ((keysOf armsAB).length * 10) = .ok st ∧
      ∀ l ∈ keysOf armsAB, ∃ p, st.posteriors.lookup l = some p ∧ p.N = 10) ∧
    (∃ r, runCreatorSimCore rng0 "c" "c1" [("A", armA0), ("B", armB0)] 999 20
        (1 / 10) (9 / 10) = .ok r ∧
      r.summary_post.length = 2 ∧
      (∀ row ∈ r.summary_post, row.n_events = 10) ∧
      (∀ i, 1 ≤ i → i ≤ 20 →
        i ≤ (keysOf [("A", armA0), ("B", armB0)]).length * 10)) := by
  constructor
  · obtain ⟨st, hst⟩ := @runEvents_ok constFam armsAB "c" (1 / 10) (9 / 10)
      (by decide) ((keysOf armsAB).length * 10)
    exact ⟨st, hst,
      claim_C5.1 constFam armsAB "c" (1 / 10) (9 / 10) st (by decide) hst⟩
  · exact claim_C5.2 rng0 "c" "c1" armA0 armB0 "B" 999 (1 / 10) (9 / 10)
      (by decide)

/-- C6 counterexample: the claim says each arm receives exactly 10 consecutive
events in label order (so events 1–10 would all go to arm "A"); but in a
two-arm run the first three events are assigned "A", "B", "A" — arm "A"'s
second forced event comes only after an event of arm "B", so no arm receives
its 10 forced events consecutively. -/
theorem claim_C6_counterexample :
    (runEvents constFam armsAB "c" (1 / 10) (9 / 10) 3).map
      (fun st => st.events.map Event.price_arm) = .ok ["A", "B", "A"] := by
  rfl

/-- C6 (amended): during the forced phase (the first `10 × |arms|` events)
arms are assigned by cycling through the arms round-robin — event `i` goes to
`arm_list[(i - 1) mod |arms|]` — so each arm receives exactly 10 events in
total, interleaved one per cycle rather than 10 consecutive ones; adaptive
selection (`choose_price_arm`) begins only after this phase. -/
theorem claim_C6 :
    (∀ (g : DrawFamily) (arms : List (Label × PriceArm)) (mr tau : ℚ)
       (posts : List (Label × Posterior)) (k i : ℕ),
       1 ≤ i → i ≤ (keysOf arms).length * 10 → (keysOf arms).length ≠ 0 →
       ∃ l, (keysOf arms).get? ((i - 1) % (keysOf arms).length) = some l ∧
         selectArm g arms mr tau posts k i = .ok (l, k)) ∧
    (∀ (g : DrawFamily) (arms : List (Label × PriceArm)) (cid : String)
       (mr tau : ℚ) (st : SimState), (keysOf arms).Nodup →
       runEvents g arms cid mr tau ((keysOf arms).length * 10) = .ok st →
       ∀ l ∈ keysOf arms, ∃ p, st.posteriors.lookup l = some p ∧ p.N = 10) ∧
    (∀ (g : DrawFamily) (arms : List (Label × PriceArm)) (mr tau : ℚ)
       (posts : List (Label × Posterior)) (k i : ℕ),
       (keysOf arms).length * 10 < i →
       selectArm g arms mr tau posts k i =
         choosePriceArm g arms "A" mr tau 2000 posts k) := by
  refine ⟨?_, ?_, ?_⟩
  · intro g arms mr tau posts k i h1 h2 hne
    have hlt : (i - 1) % (keysOf arms).length < (keysOf arms).length :=
      Nat.mod_lt _ (Nat.pos_of_ne_zero hne)
    exact ⟨_, List.get?_eq_get hlt, selectArm_forced h2 hne hlt⟩
  · intro g arms cid mr tau st hnd hst
    exact runEvents_N_at_forced_end hnd hst
  · intro g arms mr tau posts k i hi
    unfold selectArm
    rw [if_neg (by omega)]

theorem claim_C6_witness :
    (∃ l, (keysOf armsAB).get? ((3 - 1) % (keysOf armsAB).length) = some l ∧
      selectArm constFam armsAB (1 / 10) (9 / 10) (initPosteriors armsAB) 0 3 =
        .ok (l, 0)) ∧
    selectArm constFam armsAB (1 / 10) (9 / 10) (initPosteriors armsAB) 0 21 =
      choosePriceArm constFam armsAB "A" (1 / 10) (9 / 10) 2000
        (initPosteriors armsAB) 0 :=
  ⟨claim_C6.1 constFam armsAB (1 / 10) (9 / 10) (initPosteriors armsAB) 0 3
     (by norm_num) (by decide) (by decide),
   claim_C6.2.2 constFam armsAB (1 / 10) (9 / 10) (initPosteriors armsAB) 0 21
     (by decide)⟩

/-- C7: in the final guardrail table every arm is flagged `is_safe = false` iff
its computed `prob_churn_violates_guardrail` is `≥ tau` and `is_safe = true`
iff that probability is `< tau`; and the final cap agrees with the in-loop
formula (`baselineChurnEstE`) evaluated once at the final baseline posterior —
for a valid configuration the baseline has `a + b > 2` at the end, so the
in-loop estimate reduces to the posterior mean used by the final pass. -/
theorem claim_C7 (rng : Rng) (cn ci : String) (arms : List (Label × PriceArm))
    (seed n : ℕ) (mr tau : ℚ) (r : ExperimentResult)
    (hnd : (keysOf arms).Nodup) (hA : "A" ∈ keysOf arms)
    (hn : (keysOf arms).length * 10 ≤ n)
    (hr : runCreatorSimCore rng cn ci arms seed n mr tau = .ok r) :
    (∀ s ∈ r.safe_df,
      (s.is_safe = false ↔ tau ≤ s.prob_churn_violates_guardrail) ∧
      (s.is_safe = true ↔ s.prob_churn_violates_guardrail < tau)) ∧
    (∃ st base, runEvents (rng seed) arms ci mr tau n = .ok st ∧
      st.posteriors.lookup "A" = some base ∧
      baselineChurnEstE arms "A" base = .ok (base.a / (base.a + base.b)) ∧
      ∃ rest, safeRowsGoE (rng seed) arms
        (base.a / (base.a + base.b) * (1 + mr)) tau st.posteriors
        (mcGammaGo (rng seed) 10000 st.posteriors st.k).2 = .ok rest ∧
        r.safe_df = sortByKey SafeRow.price_usd rest.1) := by
  obtain ⟨st, hst, han⟩ := runCreatorSimCore_ok_elim hr
  obtain ⟨postRowsRaw, probRowsRaw, baseParams, safeRes, best_row, base_row,
    row_prob, baseArmDef, h1, h2, h3, h4, h5, h6, h7, h8, hsp, hpd, hsd,
    hbp, hup, hpg, hev⟩ := analyze_ok_elim han
  constructor
  · intro s hs
    rw [hsd] at hs
    have hs' : s ∈ safeRes.1 := (sortByKey_perm _ _).mem_iff.mp hs
    have hflag := safeRowsGoE_mem_elim h4 s hs'
    constructor
    · rw [hflag, decide_eq_false_iff_not, not_lt]
    · rw [hflag, decide_eq_true_eq]
  · -- baseline pseudo-count exceeds 2 at the end of a valid run
    obtain ⟨st0, hst0⟩ := runEvents_prefix_ok hn hst
    obtain ⟨p0, hp0, hN0⟩ := runEvents_N_at_forced_end hnd hst0 "A" hA
    have hmono := runEvents_N_mono hn hst0 hst hp0 h3
    have hbN : 10 ≤ baseParams.N := by omega
    obtain ⟨hb, hab⟩ := runEvents_invariant hst h3
    have hgt : baseParams.a + baseParams.b > 2 := by
      rw [hab]
      have hc : (10 : ℚ) ≤ (baseParams.N : ℚ) := by exact_mod_cast hbN
      linarith
    refine ⟨st, baseParams, hst, h3, ?_, safeRes, h4, hsd⟩
    unfold baselineChurnEstE
    rw [if_pos hgt]

theorem claim_C7_witness :
    ∃ r, runCreatorSimCore rng0 "c" "c1" armsAB 999 20 (1 / 10) (9 / 10) =
      .ok r ∧
      ((∀ s ∈ r.safe_df,
        (s.is_safe = false ↔ (9 : ℚ) / 10 ≤ s.prob_churn_violates_guardrail) ∧
        (s.is_safe = true ↔ s.prob_churn_violates_guardrail < 9 / 10)) ∧
      (∃ st base, runEvents (rng0 999) armsAB "c1" (1 / 10) (9 / 10) 20 =
          .ok st ∧
        st.posteriors.lookup "A" = some base ∧
        baselineChurnEstE armsAB "A" base = .ok (base.a / (base.a + base.b)) ∧
        ∃ rest, safeRowsGoE (rng0 999) armsAB
          (base.a / (base.a + base.b) * (1 + 1 / 10)) (9 / 10) st.posteriors
          (mcGammaGo (rng0 999) 10000 st.posteriors st.k).2 = .ok rest ∧
          r.safe_df = sortByKey SafeRow.price_usd rest.1)) := by
  obtain ⟨r, hr⟩ :=
    @runCreatorSimCore_ok rng0 "c" "c1" armsAB 999 20 (1 / 10) (9 / 10)
      (by decide) (by norm_num)
  exact ⟨r, hr,
    claim_C7 rng0 "c" "c1" armsAB 999 20 (1 / 10) (9 / 10) r (by decide)
      (by decide) (by decide) hr⟩

/-- C4: for every completed run, the recommended arm (whose price is returned
as `best_price`) is, among the arms flagged safe in the final guardrail table,
the one with the highest posterior mean revenue — or the baseline arm when no
arm is flagged safe; the returned `uplift_pct` equals
`(recommended − baseline) / baseline × 100` on posterior mean revenues, and
the returned `prob_ge_3` equals the recommended arm's probability of being
≥ 3% better than the runner-up, expressed as a percentage. -/
theorem claim_C4 (rng : Rng) (cn ci : String) (arms : List (Label × PriceArm))
    (seed n : ℕ) (mr tau : ℚ) (r : ExperimentResult)
    (hnd : (keysOf arms).Nodup) (hA : "A" ∈ keysOf arms)
    (hr : runCreatorSimCore rng cn ci arms seed n mr tau = .ok r) :
    ∃ bestRow ∈ r.summary_post,
      r.best_price = bestRow.price_usd ∧
      ((∃ s ∈ r.safe_df, s.is_safe = true) →
        (∃ s ∈ r.safe_df, s.price_arm = bestRow.price_arm ∧ s.is_safe = true) ∧
        ∀ q ∈ r.summary_post,
          (∃ s ∈ r.safe_df, s.price_arm = q.price_arm ∧ s.is_safe = true) →
          q.posterior_mean_revenue ≤ bestRow.posterior_mean_revenue) ∧
      ((¬∃ s ∈ r.safe_df, s.is_safe = true) → bestRow.price_arm = "A") ∧
      (∃ baseRow ∈ r.summary_post, baseRow.price_arm = "A" ∧
        r.uplift_pct = (bestRow.posterior_mean_revenue -
          baseRow.posterior_mean_revenue) / baseRow.posterior_mean_revenue *
          100) ∧
      (∃ pRow ∈ r.prob_df, pRow.price_arm = bestRow.price_arm ∧
        r.prob_ge_3 = pRow.prob_ge3_next * 100) := by
  obtain ⟨st, hst, han⟩ := runCreatorSimCore_ok_elim hr
  obtain ⟨postRowsRaw, probRowsRaw, baseParams, safeRes, best_row, base_row,
    row_prob, baseArmDef, h1, h2, h3, h4, h5, h6, h7, h8, hsp, hpd, hsd,
    hbp, hup, hpg, hev⟩ := analyze_ok_elim han
  have hkeys := runEvents_keys hst
  have hsdnd : (safeRes.1.map SafeRow.price_arm).Nodup := by
    rw [safeRowsGoE_labels h4, hkeys]
    exact hnd
  -- the filter predicate of `safeCandidatesOf` holds for a summary row iff a
  -- guardrail row with the same label is flagged safe
  have htrans : ∀ q : PostRow,
      ((safeRes.1.find? (fun s => s.price_arm = q.price_arm)).any
        SafeRow.is_safe = true) ↔
      (∃ s ∈ r.safe_df, s.price_arm = q.price_arm ∧ s.is_safe = true) := by
    intro q
    constructor
    · intro hany
      cases hf : safeRes.1.find? (fun s => s.price_arm = q.price_arm) with
      | none => rw [hf] at hany; exact absurd hany (by simp [Option.any])
      | some s =>
        rw [hf] at hany
        have hsafe : s.is_safe = true := hany
        have hmem : s ∈ safeRes.1 := List.mem_of_find?_eq_some hf
        have hps := List.find?_some hf
        have hlab : s.price_arm = q.price_arm := of_decide_eq_true hps
        refine ⟨s, ?_, hlab, hsafe⟩
        rw [hsd]
        exact (sortByKey_perm _ _).mem_iff.mpr hmem
    · intro hex
      obtain ⟨s, hsmem, hlab, hsafe⟩ := hex
      rw [hsd] at hsmem
      have hmem : s ∈ safeRes.1 := (sortByKey_perm _ _).mem_iff.mp hsmem
      rw [find?_eq_of_nodup_key hsdnd hmem hlab]
      exact hsafe
  have hcandmem : ∀ q ∈ safeCandidatesOf (sortByKey PostRow.price_usd postRowsRaw)
      safeRes.1, q ∈ sortByKey PostRow.price_usd postRowsRaw ∧
      ∃ s ∈ r.safe_df, s.price_arm = q.price_arm ∧ s.is_safe = true := by
    intro q hq
    obtain ⟨hq1, hq2⟩ := List.mem_filter.mp hq
    exact ⟨hq1, (htrans q).mp hq2⟩
  have hmemcand : ∀ q ∈ sortByKey PostRow.price_usd postRowsRaw,
      (∃ s ∈ r.safe_df, s.price_arm = q.price_arm ∧ s.is_safe = true) →
      q ∈ safeCandidatesOf (sortByKey PostRow.price_usd postRowsRaw)
        safeRes.1 := by
    intro q hq hex
    exact List.mem_filter.mpr ⟨hq, (htrans q).mpr hex⟩
  have hne_of_safe : (∃ s ∈ r.safe_df, s.is_safe = true) →
      ¬(safeCandidatesOf (sortByKey PostRow.price_usd postRowsRaw)
        safeRes.1).isEmpty = true := by
    intro hex
    obtain ⟨s, hsmem, hsafe⟩ := hex
    rw [hsd] at hsmem
    have hmem : s ∈ safeRes.1 := (sortByKey_perm _ _).mem_iff.mp hsmem
    have hlabmem : s.price_arm ∈ keysOf st.posteriors := by
      rw [← safeRowsGoE_labels h4]
      exact List.mem_map_of_mem _ hmem
    have hq : ∃ q ∈ sortByKey PostRow.price_usd postRowsRaw,
        q.price_arm = s.price_arm := by
      have : s.price_arm ∈ postRowsRaw.map PostRow.price_arm := by
        rw [postRowsE_labels h1]
        exact hlabmem
      obtain ⟨q, hqmem, hqe⟩ := List.mem_map.mp this
      exact ⟨q, (sortByKey_perm _ _).mem_iff.mpr hqmem, hqe⟩
    obtain ⟨q, hqmem, hqe⟩ := hq
    have hqf : q ∈ safeCandidatesOf (sortByKey PostRow.price_usd postRowsRaw)
        safeRes.1 := by
      apply hmemcand q hqmem
      refine ⟨s, ?_, hqe.symm, hsafe⟩
      rw [hsd]
      exact (sortByKey_perm _ _).mem_iff.mpr hmem
    intro hemp
    rw [List.isEmpty_iff] at hemp
    rw [hemp] at hqf
    exact List.not_mem_nil _ hqf
  have hemp_of_nosafe : (¬∃ s ∈ r.safe_df, s.is_safe = true) →
      (safeCandidatesOf (sortByKey PostRow.price_usd postRowsRaw)
        safeRes.1).isEmpty = true := by
    intro hnex
    cases hc : safeCandidatesOf (sortByKey PostRow.price_usd postRowsRaw)
        safeRes.1 with
    | nil => rfl
    | cons q rest =>
      exfalso
      have hq : q ∈ safeCandidatesOf (sortByKey PostRow.price_usd postRowsRaw)
          safeRes.1 := by
        rw [hc]
        exact List.mem_cons_self _ _
      obtain ⟨_, s, hsmem, _, hsafe⟩ := hcandmem q hq
      exact hnex ⟨s, hsmem, hsafe⟩
  refine ⟨best_row, ?_, hbp, ?_, ?_, ?_, ?_⟩
  · rw [hsp]
    exact bestRowOf_mem h5
  · intro hex
    obtain ⟨hbrcand, hmax⟩ := (bestRowOf_spec h5).1 (hne_of_safe hex)
    constructor
    · exact (hcandmem best_row hbrcand).2
    · intro q hq hqs
      rw [hsp] at hq
      exact hmax q (hmemcand q hq hqs)
  · intro hnex
    exact ((bestRowOf_spec h5).2 (hemp_of_nosafe hnex)).2
  · obtain ⟨hmem, hpred⟩ := firstWhereE_ok_elim h6
    refine ⟨base_row, ?_, of_decide_eq_true hpred, hup⟩
    rw [hsp]
    exact hmem
  · obtain ⟨hmem, hpred⟩ := firstWhereE_ok_elim h7
    refine ⟨row_prob, ?_, of_decide_eq_true hpred, hpg⟩
    rw [hpd]
    exact hmem

theorem claim_C4_witness :
    ∃ r, runCreatorSimCore rng0 "c" "c1" armsAB 999 20 (1 / 10) (9 / 10) =
      .ok r ∧
      ∃ bestRow ∈ r.summary_post,
        r.best_price = bestRow.price_usd ∧
        ((∃ s ∈ r.safe_df, s.is_safe = true) →
          (∃ s ∈ r.safe_df, s.price_arm = bestRow.price_arm ∧
            s.is_safe = true) ∧
          ∀ q ∈ r.summary_post,
            (∃ s ∈ r.safe_df, s.price_arm = q.price_arm ∧ s.is_safe = true) →
            q.posterior_mean_revenue ≤ bestRow.posterior_mean_revenue) ∧
        ((¬∃ s ∈ r.safe_df, s.is_safe = true) → bestRow.price_arm = "A") ∧
        (∃ baseRow ∈ r.summary_post, baseRow.price_arm = "A" ∧
          r.uplift_pct = (bestRow.posterior_mean_revenue -
            baseRow.posterior_mean_revenue) / baseRow.posterior_mean_revenue *
            100) ∧
        (∃ pRow ∈ r.prob_df, pRow.price_arm = bestRow.price_arm ∧
          r.prob_ge_3 = pRow.prob_ge3_next * 100) := by
  obtain ⟨r, hr⟩ :=
    @runCreatorSimCore_ok rng0 "c" "c1" armsAB 999 20 (1 / 10) (9 / 10)
      (by decide) (by norm_num)
  exact ⟨r, hr,
    claim_C4 rng0 "c" "c1" armsAB 999 20 (1 / 10) (9 / 10) r (by decide)
      (by decide) hr⟩
